import Mathlib

/-!
Shallow embedding of `src/casks/ledger_paste_parser.js` (v2025.12.04-01),
the paste-text ledger parser: number-token lexing, block segmentation,
name/unit assembly, quantity/price/amount disambiguation, summary
extraction and the consistency check.  Lines are `List Char`; JavaScript
numbers are modelled as exact decimals (`DecNum`, all values reached here
are finite decimals), `NaN` as `Option.none`.
-/

/-- The whitespace characters of the JS `\s` class that can occur in this
ledger text (half-width controls, NBSP, and the ideographic space). -/
def isSpace (c : Char) : Bool :=
  c == ' ' || c == '\t' || c == '\n' || c == '\r' || c == '\x0b' ||
  c == '\x0c' || c == ' ' || c == '　'

/-- Full-width decimal digits ０..９ (U+FF10–U+FF19). -/
def isFwDigit (c : Char) : Bool :=
  0xFF10 ≤ c.toNat && c.toNat ≤ 0xFF19

/-- Character class of the lexer regex `[0-9０-９,\.\\¥-]`. -/
def isNumChar (c : Char) : Bool :=
  c.isDigit || isFwDigit c || c == ',' || c == '.' || c == '\\' ||
  c == '¥' || c == '-'

/-- `replace(/\s+$/g, '')`. -/
def rtrim (l : List Char) : List Char :=
  (l.reverse.dropWhile isSpace).reverse

/-- `replace(/^\s+|\s+$/g, '')`. -/
def trim (l : List Char) : List Char :=
  rtrim (l.dropWhile isSpace)

/-- `haystack.indexOf(needle) !== -1`. -/
def isSubstr (needle : List Char) : List Char → Bool
  | [] => needle.isEmpty
  | c :: t => needle.isPrefixOf (c :: t) || isSubstr needle t

/-- Split on newlines after normalizing CRLF / CR to LF, as
`replace(/\r\n/g,'\n').replace(/\r/g,'\n').split('\n')` does.  The
accumulator carries the current line reversed. -/
def splitLinesAux : List Char → List Char → List (List Char)
  | [], cur => [cur.reverse]
  | '\r' :: '\n' :: cs, cur => cur.reverse :: splitLinesAux cs []
  | '\n' :: cs, cur => cur.reverse :: splitLinesAux cs []
  | '\r' :: cs, cur => cur.reverse :: splitLinesAux cs []
  | c :: cs, cur => splitLinesAux cs (c :: cur)

def normalizeLines (text : List Char) : List (List Char) :=
  splitLinesAux text []

-- -------------------- number-token lexer --------------------

/-- A raw lexer token: the matched substring and its index in the line. -/
structure NumTok where
  text : List Char
  index : Nat
deriving DecidableEq, Repr

/-- Left-to-right scan matching maximal runs of `isNumChar`, as the global
regex `/[0-9０-９,\.\\¥-]+/g` does.  `cur` holds the run in progress
(characters reversed, with its start index). -/
def tokensAux : List Char → Nat → Option (List Char × Nat) → List NumTok
  | [], _, none => []
  | [], _, some (run, j) => [⟨run.reverse, j⟩]
  | c :: cs, i, none =>
      if isNumChar c then tokensAux cs (i + 1) (some ([c], i))
      else tokensAux cs (i + 1) none
  | c :: cs, i, some (run, j) =>
      if isNumChar c then tokensAux cs (i + 1) (some (c :: run, j))
      else ⟨run.reverse, j⟩ :: tokensAux cs (i + 1) none

/-- `findNumberTokens(line)`. -/
def findNumberTokens (line : List Char) : List NumTok :=
  tokensAux line 0 none

-- -------------------- exact decimal numbers --------------------

/-- `10 ^ e`. -/
def pow10 (e : Nat) : Nat := 10 ^ e

/-- Exact decimal number `num / 10 ^ exp`.  Every JS number reached by the
parser is such a decimal, so this models the arithmetic exactly; `NaN` is
`Option.none` at the use sites. -/
structure DecNum where
  num : Int
  exp : Nat
deriving DecidableEq, Repr

namespace DecNum

/-- The rational value of a decimal. -/
def toQ (d : DecNum) : ℚ := (d.num : ℚ) / ((pow10 d.exp : Nat) : ℚ)

def mul (a b : DecNum) : DecNum := ⟨a.num * b.num, a.exp + b.exp⟩

def add (a b : DecNum) : DecNum :=
  ⟨a.num * ((pow10 b.exp : Nat) : Int) + b.num * ((pow10 a.exp : Nat) : Int),
   a.exp + b.exp⟩

def neg (a : DecNum) : DecNum := ⟨-a.num, a.exp⟩

def sub (a b : DecNum) : DecNum := add a (neg b)

/-- `Math.abs`. -/
def aval (a : DecNum) : DecNum := ⟨(a.num.natAbs : Int), a.exp⟩

def ble (a b : DecNum) : Bool :=
  decide (a.num * ((pow10 b.exp : Nat) : Int) ≤
    b.num * ((pow10 a.exp : Nat) : Int))

def blt (a b : DecNum) : Bool :=
  decide (a.num * ((pow10 b.exp : Nat) : Int) <
    b.num * ((pow10 a.exp : Nat) : Int))

/-- The literal `0`. -/
def zero : DecNum := ⟨0, 0⟩

/-- The literal `0.5`. -/
def half : DecNum := ⟨5, 1⟩

/-- The literal `1e-6`. -/
def eps6 : DecNum := ⟨1, 6⟩

end DecNum

-- -------------------- numeric parsing and formatting --------------------

/-- Numeric value of a half-width digit string, most significant first. -/
def digitsVal (ds : List Char) : Nat :=
  ds.foldl (fun a c => a * 10 + (c.toNat - 48)) 0

/-- JS `parseFloat` restricted to the alphabet reachable here (half- and
full-width digits, periods, hyphens): maximal valid prefix after an
optional sign, `none` when no digit is consumed (NaN).  Full-width digits
are not digits for `parseFloat` and stop the scan. -/
def parseFloatD (s : List Char) : Option DecNum :=
  let sr : Bool × List Char :=
    match s with
    | '-' :: r => (true, r)
    | '+' :: r => (false, r)
    | r => (false, r)
  let ints := sr.2.takeWhile Char.isDigit
  let rest := sr.2.dropWhile Char.isDigit
  let fracs : List Char :=
    match rest with
    | '.' :: r2 => r2.takeWhile Char.isDigit
    | _ => []
  if ints.isEmpty && fracs.isEmpty then none
  else
    let mag : Int := (digitsVal ints * pow10 fracs.length + digitsVal fracs : Nat)
    some ⟨if sr.1 then -mag else mag, fracs.length⟩

/-- `parseNumberSimple(val)`: strip `¥`, backslash and commas, trim, then
`parseFloat`; `none` is NaN. -/
def parseNumberSimple (l : List Char) : Option DecNum :=
  let s := trim (l.filter (fun c => !(c == '¥' || c == '\\' || c == ',')))
  if s.isEmpty then none else parseFloatD s

/-- Rounding used by `toFixed(2)` on the exact decimals reached here:
nearest, ties away from zero.  The input is `d` interpreted after the
`* 100` scaling, so the result is `round(d.num / 10 ^ d.exp)`. -/
def roundHalfAway (d : DecNum) : Int :=
  let p := pow10 d.exp
  if 0 ≤ d.num then ((2 * d.num.natAbs + p) / (2 * p) : Nat)
  else -(((2 * d.num.natAbs + p) / (2 * p) : Nat) : Int)

/-- Decimal digits of `n`, least significant first; the fuel argument
bounds the recursion and `n` itself always suffices. -/
def natDigitsRev : Nat → Nat → List Char
  | 0, _ => []
  | fuel + 1, n =>
      if n = 0 then [] else Char.ofNat (48 + n % 10) :: natDigitsRev fuel (n / 10)

/-- Decimal digit string of `n`, most significant first. -/
def natToDigits (n : Nat) : List Char :=
  if n = 0 then ['0'] else (natDigitsRev n n).reverse

/-- Insert a comma after every three digits, walking the reversed digit
list, as the `/(\d+)(\d{3})/` replacement loop does. -/
def groupRev : Nat → List Char → List Char
  | _, [] => []
  | k, c :: cs =>
      if k = 3 then ',' :: c :: groupRev 1 cs else c :: groupRev (k + 1) cs

/-- `formatAmount(val)`: two decimals, thousands commas. -/
def formatAmount (q : DecNum) : List Char :=
  let m : Int := roundHalfAway ⟨q.num * 100, q.exp⟩
  let a : Nat := m.natAbs
  let ip := (groupRev 0 (natToDigits (a / 100)).reverse).reverse
  let f1 := Char.ofNat (48 + a % 100 / 10)
  let f2 := Char.ofNat (48 + a % 10)
  (if m < 0 then ['-'] else []) ++ ip ++ '.' :: [f1, f2]

/-- `normalizeTotal(val)`: strip `¥` and backslash, strip the trailing
hyphen run, trim. -/
def normalizeTotal (l : List Char) : List Char :=
  let v := l.filter (fun c => !(c == '¥' || c == '\\'))
  trim (v.reverse.dropWhile (fun c => c == '-')).reverse

-- -------------------- units --------------------

/-- The fixed unit-of-measure codes `(PC|BG|KG|EA|CA|CN|SH)`. -/
def unitList : List (List Char) :=
  [['P', 'C'], ['B', 'G'], ['K', 'G'], ['E', 'A'], ['C', 'A'], ['C', 'N'],
   ['S', 'H']]

/-- `splitNameAndUnit(fullName)`: right-trim, then split off a glued
trailing unit code. -/
def splitNameAndUnit (fullName : List Char) : List Char × List Char :=
  let t := rtrim fullName
  if t.isEmpty then ([], [])
  else
    let last2 := t.drop (t.length - 2)
    if 2 ≤ t.length ∧ last2 ∈ unitList then (t.take (t.length - 2), last2)
    else (t, [])

/-- The lookahead `(?=\s|$)` after a unit code. -/
def lookaheadOk : List Char → Bool
  | [] => true
  | d :: _ => isSpace d

/-- Does a unit code with its lookahead match at the head of `l`? -/
def unitHere : List Char → Option (List Char)
  | c1 :: c2 :: rest =>
      if [c1, c2] ∈ unitList ∧ lookaheadOk rest then some [c1, c2] else none
  | _ => none

def unitMatchAux : List Char → Nat → Option (Nat × List Char)
  | [], _ => none
  | c :: cs, i =>
      match unitHere (c :: cs) with
      | some u => some (i, u)
      | none => unitMatchAux cs (i + 1)

/-- First match of `/(PC|BG|KG|EA|CA|CN|SH)(?=\s|$)/` with its index. -/
def unitMatch (l : List Char) : Option (Nat × List Char) :=
  unitMatchAux l 0

-- -------------------- item-code detection --------------------

/-- The negative lookahead `(?!\d)` after the three digits. -/
def notDigitAhead : List Char → Bool
  | [] => true
  | d4 :: _ => !d4.isDigit

/-- Does `/0\d{3}(?!\d)/` match at the head of the list? -/
def codeHere : List Char → Option (List Char)
  | c :: d1 :: d2 :: d3 :: rest =>
      if c = '0' ∧ d1.isDigit ∧ d2.isDigit ∧ d3.isDigit ∧
          notDigitAhead rest = true then
        some [c, d1, d2, d3]
      else none
  | _ => none

def codeMatchAux : List Char → Nat → Option (Nat × List Char)
  | [], _ => none
  | c :: cs, i =>
      match codeHere (c :: cs) with
      | some t => some (i, t)
      | none => codeMatchAux cs (i + 1)

/-- First match of the item-code regex `/0\d{3}(?!\d)/` with its index. -/
def codeMatch (l : List Char) : Option (Nat × List Char) :=
  codeMatchAux l 0

-- -------------------- detail parser: token pool --------------------

/-- A block-pool token: text, parsed value, code flag, reading-order
index (`globalIndex` is assigned only to tokens whose value parsed). -/
structure VTok where
  text : List Char
  value : DecNum
  isCode : Bool
  gIdx : Nat
deriving DecidableEq, Repr

/-- The per-line `(text, value)` pairs that survive the NaN filter when
building `tokensBlock`. -/
def lineVals (l : List Char) : List (List Char × DecNum) :=
  (findNumberTokens l).filterMap
    (fun t => (parseNumberSimple t.text).map (fun v => (t.text, v)))

/-- `tokensBlock`: every parseable token of the block's lines, in reading
order, tagged with `isCode` (text equal to the block's code) and a running
`globalIndex`. -/
def tokensBlock (code : List Char) (ls : List (List Char)) : List VTok :=
  ((ls.map lineVals).flatten.enum).map
    (fun p => ⟨p.2.1, p.2.2, p.2.1 == code, p.1⟩)

-- -------------------- detail parser: last-pair rule --------------------

/-- The non-code tokens of one line (code text filtered out). -/
def nonCodeToks (code : List Char) (l : List Char) : List NumTok :=
  (findNumberTokens l).filter (fun t => !(t.text == code))

/-- Find the last line with two or more non-code tokens; return its
non-code tokens together with the lines after it. -/
def findLastPair (code : List Char) :
    List (List Char) → Option (List NumTok × List (List Char))
  | [] => none
  | l :: rest =>
      match findLastPair code rest with
      | some r => some r
      | none =>
          let nc := nonCodeToks code l
          if 2 ≤ nc.length then some (nc, rest) else none

/-- From the lines after the pair line: the last non-code token of the
first line that has one (the amount). -/
def findAmountText (code : List Char) : List (List Char) → Option (List Char)
  | [] => none
  | l :: rest =>
      match (nonCodeToks code l).getLast? with
      | some t => some t.text
      | none => findAmountText code rest

/-- The last-pair rule (source lines 243–309): quantity and unit price are
the final two tokens of the last two-number line; the amount is the first
subsequent printed number, or the formatted product when none exists. -/
def pairFields (code : List Char) (blockLines : List (List Char)) :
    Option (List Char × List Char × List Char) :=
  match findLastPair code blockLines with
  | none => none
  | some (nc, rest) =>
      let qtyText := (((nc.get? (nc.length - 2)).map NumTok.text).getD [])
      let priceText := ((nc.getLast?.map NumTok.text).getD [])
      let amountText :=
        match findAmountText code rest with
        | some a => a
        | none =>
            match parseNumberSimple qtyText, parseNumberSimple priceText with
            | some qv, some pv => formatAmount (qv.mul pv)
            | _, _ => []
      some (qtyText, priceText, amountText)

-- -------------------- detail parser: fallback --------------------

/-- `amountToken`: the first maximum-value token (strict `>` keeps the
earlier one on ties). -/
def firstMax : List VTok → Option VTok
  | [] => none
  | t :: ts =>
      some (ts.foldl (fun b x => if DecNum.blt b.value x.value then x else b) t)

/-- The candidate pool: positive-valued tokens other than the amount
token. -/
def candidatesOf (amountTok : VTok) (toks : List VTok) : List VTok :=
  toks.filter (fun t =>
    decide (t.gIdx ≠ amountTok.gIdx) && DecNum.blt DecNum.zero t.value)

/-- All ordered pairs of distinct candidate positions, outer index first,
matching the nested `qi`/`pj2` loops. -/
def orderedPairs (cand : List VTok) : List (VTok × VTok) :=
  (cand.enum.map (fun q => cand.enum.filterMap
    (fun p => if p.1 ≠ q.1 then some (q.2, p.2) else none))).flatten

/-- State of the best-pair search: `bestDiff` (`none` is `Infinity`),
`bestQtyTok`, `bestPriceTok`. -/
structure BestSt where
  bestDiff : Option DecNum
  bestQ : Option VTok
  bestP : Option VTok
deriving DecidableEq, Repr

/-- One step of the best-pair loop: a strictly better product (by more
than `1e-6`) replaces the pair and the difference; a product within `0.5`
of the recorded difference replaces only the pair when it reads earlier. -/
def bestStep (amt : DecNum) (st : BestSt) (qp : VTok × VTok) : BestSt :=
  if DecNum.ble qp.1.value DecNum.zero || DecNum.ble qp.2.value DecNum.zero then st
  else
    let diff := ((qp.1.value.mul qp.2.value).sub amt).aval
    match st.bestDiff with
    | none => ⟨some diff, some qp.1, some qp.2⟩
    | some bd =>
        if DecNum.blt (diff.add DecNum.eps6) bd then ⟨some diff, some qp.1, some qp.2⟩
        else if DecNum.ble (diff.sub bd).aval DecNum.half then
          match st.bestQ, st.bestP with
          | some bq, some bp =>
              if qp.1.gIdx < bq.gIdx ∨
                  (qp.1.gIdx = bq.gIdx ∧ qp.2.gIdx < bp.gIdx) then
                ⟨st.bestDiff, some qp.1, some qp.2⟩
              else st
          | _, _ => ⟨st.bestDiff, some qp.1, some qp.2⟩
        else st

def runBest (amt : DecNum) (prs : List (VTok × VTok)) : BestSt :=
  prs.foldl (bestStep amt) ⟨none, none, none⟩

/-- Stable ascending insertion by value: only strictly smaller elements
stay in front, so an inserted element lands before equal-valued later
ones.  The resulting insertion sort is the stable ascending reordering,
which is exactly what the source's bubble sort (swap only on strict `>`)
computes. -/
def insertAsc (x : VTok) : List VTok → List VTok
  | [] => [x]
  | y :: ys =>
      if DecNum.blt y.value x.value then y :: insertAsc x ys
      else x :: y :: ys

def sortAsc (l : List VTok) : List VTok :=
  l.foldr insertAsc []

/-- The fallback classification (source lines 311–448) over the block's
non-code token pool. -/
def fallbackFields (toks : List VTok) : List Char × List Char × List Char :=
  if 3 ≤ toks.length then
    match firstMax toks with
    | none => ([], [], [])
    | some amountTok =>
        let cand := candidatesOf amountTok toks
        let st :=
          if 2 ≤ cand.length then runBest amountTok.value (orderedPairs cand)
          else (⟨none, none, none⟩ : BestSt)
        match st.bestQ, st.bestP with
        | some bq, some bp => (bq.text, bp.text, amountTok.text)
        | _, _ =>
            match sortAsc toks with
            | q3 :: p3 :: _ =>
                (q3.text, p3.text, formatAmount (q3.value.mul p3.value))
            | _ => ([], [], amountTok.text)
  else
    match toks with
    | [tA, tB] =>
        let qp := if DecNum.ble tA.value tB.value then (tA, tB) else (tB, tA)
        (qp.1.text, qp.2.text, formatAmount (qp.1.value.mul qp.2.value))
    | [t1] => (t1.text, [], [])
    | _ => ([], [], [])

/-- Quantity / unit price / amount of one block: the last-pair rule when a
two-number line exists, the fallback otherwise. -/
def detailFields (code : List Char) (blockLines : List (List Char)) :
    List Char × List Char × List Char :=
  match pairFields code blockLines with
  | some r => r
  | none => fallbackFields ((tokensBlock code blockLines).filter
      (fun t => !t.isCode))

-- -------------------- detail parser: name and unit --------------------

/-- The name/unit loop over the lines after the code line: quiet lines are
appended whole, a unit line contributes its text before the unit and
stops, a numeric line contributes its text before the first token and
stops. -/
def nameScan : List (List Char) → List (List Char) × List Char
  | [] => ([], [])
  | l :: rest =>
      let t3 := trim l
      if t3.isEmpty then nameScan rest
      else
        match unitMatch t3, findNumberTokens l with
        | some (uIdx, u), _ =>
            let pfx := rtrim (t3.take uIdx)
            ((if pfx.isEmpty then [] else [pfx]), u)
        | none, [] =>
            let pu := nameScan rest
            (t3 :: pu.1, pu.2)
        | none, tk :: _ =>
            let pfx := trim (l.take tk.index)
            ((if pfx.isEmpty then [] else [pfx]), [])

/-- Name and unit of one block (source lines 450–533): the code line's
tail first, the scan of the following lines second, glued-suffix split as
a last resort. -/
def nameAndUnit (line : List Char) (mIdx : Nat)
    (body : List (List Char)) : List Char × List Char :=
  let tailTrim := trim (line.drop (mIdx + 4))
  let head : List (List Char) × List Char :=
    if tailTrim.isEmpty then ([], [])
    else
      match unitMatch tailTrim with
      | some (uIdx, u) =>
          let nameCandidate := rtrim (tailTrim.take uIdx)
          ((if nameCandidate.isEmpty then [] else [nameCandidate]), u)
      | none => ([tailTrim], [])
  let scanned := nameScan body
  let unitFromName := if head.2.isEmpty then scanned.2 else head.2
  let fullName := (head.1 ++ scanned.1).flatten
  if unitFromName.isEmpty then splitNameAndUnit fullName
  else (fullName, unitFromName)

-- -------------------- detail parser: blocks and main loop --------------------

def mkNouchi : List Char := "納　地".toList
def mkGyousha : List Char := "業 者 名".toList
def mkDaicho : List Char := "納入台帳".toList
def mkKazei : List Char := "課税対象額".toList
def mkI : List Char := "以".toList
def mkYo : List Char := "余".toList
def mkReiwa : List Char := "令和".toList
def mkNen : List Char := "年".toList
def mkTsuki : List Char := "月".toList

/-- How many of the lines after the code line belong to the block
(terminator search, source lines 180–213): blank lines are kept, the next
code line and the header / title / taxable-base lines end the block
exclusively, the remainder-blank line ends it inclusively. -/
def blockRest : List (List Char) → Nat
  | [] => 0
  | l :: rest =>
      let t2 := trim l
      if t2.isEmpty then 1 + blockRest rest
      else if (codeMatch l).isSome then 0
      else if isSubstr mkNouchi t2 && isSubstr mkGyousha t2 then 0
      else if isSubstr mkDaicho t2 then 0
      else if isSubstr mkKazei t2 then 0
      else if isSubstr mkI t2 && isSubstr mkYo t2 then 1
      else 1 + blockRest rest

/-- The era-year-month header test on a trimmed line. -/
def isHeaderLine (t : List Char) : Bool :=
  isSubstr mkReiwa t && isSubstr mkNen t && isSubstr mkTsuki t

/-- The first following non-blank line, trimmed (the vendor string). -/
def firstVendor : List (List Char) → Option (List Char)
  | [] => none
  | l :: rest =>
      let t := trim l
      if t.isEmpty then firstVendor rest else some t

/-- One emitted line item. -/
structure Row where
  vendor : List Char
  no : List Char
  name : List Char
  spec : List Char
  unit : List Char
  qty : List Char
  price : List Char
  amount : List Char
  note : List Char
deriving DecidableEq, Repr

/-- Build the row of one block from the running vendor, the matched code,
the code line and the block body. -/
def buildRow (vendor code line : List Char) (mIdx : Nat)
    (body : List (List Char)) : Row :=
  let qpa := detailFields code (line :: body)
  let nu := nameAndUnit line mIdx body
  { vendor := vendor, no := code, name := nu.1, spec := [], unit := nu.2,
    qty := qpa.1, price := qpa.2.1, amount := qpa.2.2, note := [] }

/-- The main loop of `parseDetailsFromText` (source lines 140–551).  The
fuel argument is the line count; every step consumes at least one line, so
`lines.length` fuel always suffices. -/
def goRows : Nat → List Char → List (List Char) → List Row
  | 0, _, _ => []
  | _ + 1, _, [] => []
  | fuel + 1, vendor, l :: rest =>
      let trimmed := trim l
      if isHeaderLine trimmed then
        goRows fuel ((firstVendor rest).getD vendor) rest
      else if trimmed.isEmpty then goRows fuel vendor rest
      else
        match codeMatch l with
        | none => goRows fuel vendor rest
        | some (mIdx, code) =>
            let bN := blockRest rest
            buildRow vendor code l mIdx (rest.take bN) ::
              goRows fuel vendor (rest.drop bN)

/-- `parseDetailsFromText(text)`. -/
def parseDetailsFromText (text : List Char) : List Row :=
  let lines := normalizeLines text
  goRows lines.length [] lines

-- -------------------- summary parser --------------------

/-- A remainder-blank marker line: the trimmed line contains both 以 and
余. -/
def markerLine (l : List Char) : Bool :=
  isSubstr mkI (trim l) && isSubstr mkYo (trim l)

/-- Backward scan for the marker: the recursion prefers a marker found in
the rest of the list, so the result is the greatest marker-line index,
exactly what the source's scan from the end finds first. -/
def lastMarkerAux : List (List Char) → Nat → Option Nat
  | [], _ => none
  | l :: rest, i =>
      match lastMarkerAux rest (i + 1) with
      | some j => some j
      | none => if markerLine l then some i else none

/-- The greatest marker-line index, as the backward scan of
`parseSummaryFromText` finds it. -/
def lastMarkerIdx (ls : List (List Char)) : Option Nat :=
  lastMarkerAux ls 0

/-- The last numeric token of a line, when the line has one. -/
def lastTokText (l : List Char) : Option (List Char) :=
  (findNumberTokens l).getLast?.map NumTok.text

/-- Collect per line the last numeric token until `need` of them have been
gathered (the `numbers.length >= 3` break). -/
def collectNums : Nat → List (List Char) → List (List Char)
  | _, [] => []
  | 0, _ :: _ => []
  | need + 1, l :: rest =>
      match lastTokText l with
      | some t => t :: collectNums need rest
      | none => collectNums (need + 1) rest

/-- The positional interpretation of the collected summary numbers stated
by the spec: first is the taxable base, second the total (trailing sign
run stripped), third the tax; everything blank when fewer than three
numbers were found. -/
def summaryOfNums (nums : List (List Char)) :
    List Char × List Char × List Char :=
  match nums with
  | [n0, n1, n2] => (n0, n2, normalizeTotal n1)
  | _ => ([], [], [])

/-- `parseSummaryFromText(text)`, returning `(base, tax, total)`. -/
def parseSummaryFromText (text : List Char) :
    List Char × List Char × List Char :=
  let lines := normalizeLines text
  let startIdx :=
    match lastMarkerIdx lines with
    | some j => j + 1
    | none => lines.length - 10
  match collectNums 3 (lines.drop startIdx) with
  | [n0, n1, n2] => (n0, n2, normalizeTotal n1)
  | _ => ([], [], [])

-- -------------------- exported entry point --------------------

/-- The enriched summary returned by `parseLedgerText`. -/
structure Summary where
  base : List Char
  tax : List Char
  total : List Char
  calcBase : DecNum
  calcBaseStr : List Char
  baseCheckMark : List Char
deriving DecidableEq, Repr

/-- The amount-sum loop of `parseLedgerText`: unparsable amounts are
skipped. -/
def sumAmounts (rows : List Row) : DecNum :=
  rows.foldl
    (fun s r => match parseNumberSimple r.amount with
      | some v => s.add v
      | none => s) DecNum.zero

/-- The claim's "sum of all parsed LineItem amounts", as a rational: the
amounts that parse, interpreted exactly, added up. -/
def amountSumQ (rows : List Row) : ℚ :=
  ((rows.filterMap (fun r => parseNumberSimple r.amount)).map DecNum.toQ).sum

/-- The claim's closeness measure for the best-fit search: distance of an
ordered pair's product to the amount candidate, over the rationals. -/
def pairDiffQ (amt : DecNum) (qp : VTok × VTok) : ℚ :=
  |DecNum.toQ qp.1.value * DecNum.toQ qp.2.value - DecNum.toQ amt|

/-- `parseLedgerText(text)`: rows, printed summary, computed base and the
consistency mark. -/
def parseLedgerText (text : List Char) : List Row × Summary :=
  let rows := parseDetailsFromText text
  let s3 := parseSummaryFromText text
  let sum := sumAmounts rows
  let calcBaseStr := if rows.isEmpty then [] else formatAmount sum
  let mark :=
    match parseNumberSimple s3.1 with
    | some bn => if DecNum.blt (bn.sub sum).aval DecNum.half then ['<'] else []
    | none => []
  (rows, ⟨s3.1, s3.2.1, s3.2.2, sum, calcBaseStr, mark⟩)

-- ==================== transfer lemmas ====================

theorem pow10_pos_q : ∀ e : Nat, (0 : ℚ) < ((pow10 e : Nat) : ℚ) := by
  intro e
  have h : 0 < pow10 e := Nat.pos_pow_of_pos e (by omega)
  exact_mod_cast h

theorem DecNum.toQ_mul (a b : DecNum) : (a.mul b).toQ = a.toQ * b.toQ := by
  simp only [toQ, mul, pow10, pow_add]
  push_cast
  ring

theorem DecNum.toQ_add (a b : DecNum) : (a.add b).toQ = a.toQ + b.toQ := by
  have ha := pow10_pos_q a.exp
  have hb := pow10_pos_q b.exp
  simp only [toQ, add, pow10, pow_add] at *
  push_cast
  field_simp

theorem DecNum.toQ_neg (a : DecNum) : a.neg.toQ = -a.toQ := by
  simp only [toQ, neg]
  push_cast
  ring

theorem DecNum.toQ_sub (a b : DecNum) : (a.sub b).toQ = a.toQ - b.toQ := by
  simp only [sub, toQ_add, toQ_neg]
  ring

theorem DecNum.toQ_aval (a : DecNum) : a.aval.toQ = |a.toQ| := by
  have ha := pow10_pos_q a.exp
  simp only [toQ, aval]
  rw [abs_div, abs_of_pos ha, Int.cast_natCast, Int.cast_natAbs, Int.cast_abs]

theorem DecNum.ble_iff (a b : DecNum) : a.ble b = true ↔ a.toQ ≤ b.toQ := by
  have ha := pow10_pos_q a.exp
  have hb := pow10_pos_q b.exp
  rw [ble, toQ, toQ, div_le_div_iff₀ ha hb, decide_eq_true_eq]
  constructor
  · intro h
    exact_mod_cast h
  · intro h
    exact_mod_cast h

theorem DecNum.blt_iff (a b : DecNum) : a.blt b = true ↔ a.toQ < b.toQ := by
  have ha := pow10_pos_q a.exp
  have hb := pow10_pos_q b.exp
  rw [blt, toQ, toQ, div_lt_div_iff₀ ha hb, decide_eq_true_eq]
  constructor
  · intro h
    exact_mod_cast h
  · intro h
    exact_mod_cast h

theorem DecNum.toQ_zero : DecNum.zero.toQ = 0 := by
  simp [toQ, zero]

theorem DecNum.toQ_half : DecNum.half.toQ = 1 / 2 := by
  norm_num [toQ, half, pow10]

theorem DecNum.toQ_eps6 : DecNum.eps6.toQ = 1 / 1000000 := by
  norm_num [toQ, eps6, pow10]

-- ==================== lexer token facts ====================

theorem tokensAux_text_ok :
    ∀ (l : List Char) (i : Nat) (cur : Option (List Char × Nat))
      (t : NumTok),
    (∀ run j, cur = some (run, j) → run ≠ [] ∧ run.all isNumChar = true) →
    t ∈ tokensAux l i cur →
    t.text ≠ [] ∧ t.text.all isNumChar = true := by
  intro l
  induction l with
  | nil =>
      intro i cur t hcur hmem
      cases cur with
      | none => simp [tokensAux] at hmem
      | some rj =>
          obtain ⟨run, j⟩ := rj
          simp [tokensAux] at hmem
          obtain ⟨hr, _⟩ := hcur run j rfl
          subst hmem
          simpa [List.all_reverse] using hcur run j rfl
  | cons c cs ih =>
      intro i cur t hcur hmem
      cases cur with
      | none =>
          simp only [tokensAux] at hmem
          by_cases hc : isNumChar c
          · rw [if_pos hc] at hmem
            exact ih (i + 1) _ t (by simp [hc]) hmem
          · rw [if_neg hc] at hmem
            exact ih (i + 1) none t (by simp) hmem
      | some rj =>
          obtain ⟨run, j⟩ := rj
          simp only [tokensAux] at hmem
          by_cases hc : isNumChar c
          · rw [if_pos hc] at hmem
            refine ih (i + 1) _ t ?_ hmem
            intro run2 j2 heq
            injection heq with heq2
            injection heq2 with ha hb
            subst ha
            obtain ⟨_, hall⟩ := hcur run j rfl
            exact ⟨by simp, by simp [hc, hall]⟩
          · rw [if_neg hc] at hmem
            rcases List.mem_cons.mp hmem with hhd | htl
            · subst hhd
              obtain ⟨hr, hall⟩ := hcur run j rfl
              exact ⟨by simpa using hr, by simpa [List.all_reverse] using hall⟩
            · exact ih (i + 1) none t (by simp) htl

/-- Every token the lexer yields has a nonempty text over the number
character class. -/
theorem findNumberTokens_text_ok (l : List Char) (t : NumTok)
    (h : t ∈ findNumberTokens l) :
    t.text ≠ [] ∧ t.text.all isNumChar = true :=
  tokensAux_text_ok l 0 none t (by simp) h

-- ==================== last-pair rule facts ====================

theorem findLastPair_none (code : List Char) :
    ∀ ls, (∀ l ∈ ls, (nonCodeToks code l).length < 2) →
    findLastPair code ls = none := by
  intro ls
  induction ls with
  | nil => intro _; rfl
  | cons l rest ih =>
      intro h
      have hrest := ih (fun x hx => h x (List.mem_cons_of_mem l hx))
      have hl := h l (List.mem_cons_self l rest)
      simp only [findLastPair, hrest]
      rw [if_neg (by omega)]

theorem findLastPair_append (code : List Char) (pre post : List (List Char))
    (pairLine : List Char)
    (h2 : 2 ≤ (nonCodeToks code pairLine).length)
    (hpost : ∀ l ∈ post, (nonCodeToks code l).length < 2) :
    findLastPair code (pre ++ pairLine :: post) =
      some (nonCodeToks code pairLine, post) := by
  induction pre with
  | nil =>
      simp only [List.nil_append, findLastPair, findLastPair_none code post hpost]
      rw [if_pos h2]
  | cons l pre2 ih =>
      simp only [List.cons_append, findLastPair, List.append_eq, ih]

theorem findAmountText_append (code : List Char) (preA postA : List (List Char))
    (amtLine : List Char) (aTok : NumTok)
    (hquiet : ∀ l ∈ preA, nonCodeToks code l = [])
    (hlast : (nonCodeToks code amtLine).getLast? = some aTok) :
    findAmountText code (preA ++ amtLine :: postA) = some aTok.text := by
  induction preA with
  | nil => simp [findAmountText, hlast]
  | cons l pre2 ih =>
      have hl := hquiet l (List.mem_cons_self l pre2)
      simp only [List.cons_append, findAmountText, hl]
      exact ih (fun x hx => hquiet x (List.mem_cons_of_mem l hx))

/-- C1 (last-pair rule): in a block whose non-code tokens include a line
ending in tokens `qTok, pTok` that is the last line with two or more
non-code tokens, quantity and unit price are those two token texts in that
order, and the amount is the last token text of the first subsequent line
with a non-code token — all verbatim source substrings. -/
theorem claim_C1_last_pair (code pairLine amtLine : List Char)
    (pre preA postA : List (List Char)) (front front2 : List NumTok)
    (qTok pTok aTok : NumTok)
    (hpair : nonCodeToks code pairLine = front ++ [qTok, pTok])
    (hsmall : ∀ l ∈ preA ++ amtLine :: postA, (nonCodeToks code l).length < 2)
    (hquiet : ∀ l ∈ preA, nonCodeToks code l = [])
    (hamt : nonCodeToks code amtLine = front2 ++ [aTok]) :
    detailFields code (pre ++ pairLine :: (preA ++ amtLine :: postA)) =
      (qTok.text, pTok.text, aTok.text) := by
  have h2 : 2 ≤ (nonCodeToks code pairLine).length := by
    simp [hpair]
  have hflp := findLastPair_append code pre (preA ++ amtLine :: postA)
    pairLine h2 hsmall
  have hget : (nonCodeToks code pairLine)[(nonCodeToks code pairLine).length
      - 2]? = some qTok := by
    rw [hpair]
    have hlen : (front ++ [qTok, pTok]).length - 2 = front.length := by simp
    rw [hlen, List.getElem?_append_right (le_refl _)]
    simp
  have hlastp : (nonCodeToks code pairLine).getLast? = some pTok := by
    rw [hpair, show front ++ [qTok, pTok] = (front ++ [qTok]) ++ [pTok] by
      simp, List.getLast?_concat]
  have hlasta : (nonCodeToks code amtLine).getLast? = some aTok := by
    rw [hamt, List.getLast?_concat]
  have hfam := findAmountText_append code preA postA amtLine aTok hquiet hlasta
  simp [detailFields, pairFields, hflp, hget, hlastp, hfam]

/-- Witness for C1: the spec's round-trip scenario block `"0001"`,
`"0.10"`, `"0.10 19,500.00"`, `"1,950.00"`. -/
theorem claim_C1_last_pair_witness :
    detailFields "0001".toList
      (["0001".toList, "0.10".toList] ++ "0.10 19,500.00".toList ::
        ([] ++ "1,950.00".toList :: [])) =
      ("0.10".toList, "19,500.00".toList, "1,950.00".toList) :=
  claim_C1_last_pair "0001".toList "0.10 19,500.00".toList "1,950.00".toList
    ["0001".toList, "0.10".toList] [] [] [] []
    ⟨"0.10".toList, 0⟩ ⟨"19,500.00".toList, 5⟩ ⟨"1,950.00".toList, 0⟩
    (by decide) (by decide) (by decide) (by decide)

/-- C3 (failing input): the lexer's character class includes full-width
digits, so `"１Ｌ豆乳飲料"` yields the numeric token `"１"`.  A block
`"0001" / "１Ｌ豆乳飲料" / "EA"` therefore loses its name (the name line
counts as numeric and stops assembly before the unit line), and a
full-width numeral is even emitted verbatim as a quantity / price pair in
`"0001" / "１ ２"`. -/
theorem claim_C3_full_width_lexed :
    findNumberTokens "１Ｌ豆乳飲料".toList = [⟨['１'], 0⟩] ∧
    parseDetailsFromText "0001\n１Ｌ豆乳飲料\nEA".toList =
      [⟨[], "0001".toList, [], [], [], [], [], [], []⟩] ∧
    (parseDetailsFromText "0001\n１ ２".toList).map
      (fun r => (r.qty, r.price)) = [(['１'], ['２'])] :=
  ⟨by decide, by decide, by decide⟩

/-- C4 counterexample: the block `"0001" / ". ."` emits a row whose
quantity and price are the verbatim token `"."`, which is non-empty and
does not parse to any number even after stripping separators, currency
glyphs and the trailing sign run. -/
theorem claim_C4_counterexample :
    (parseDetailsFromText "0001\n. .".toList).map
      (fun r => (r.qty, r.price, r.amount)) = [(['.'], ['.'], [])] ∧
    parseNumberSimple (normalizeTotal ['.']) = none :=
  ⟨by decide, by decide⟩

/-- C8 counterexample: the line `"1234"` is a 4-digit token not followed
by another digit, yet it anchors no block — the code regex requires the
leading digit to be `0`. -/
theorem claim_C8_counterexample :
    ("1234".toList.length = 4 ∧ "1234".toList.all Char.isDigit = true ∧
      notDigitAhead ([] : List Char) = true) ∧
    parseDetailsFromText "1234".toList = [] :=
  ⟨by decide, by decide⟩

/-- C2 counterexample: in the block `"0001" / "2.00" / "3.00" / "100.00"`
no line has two non-code tokens, every ordered pair of pool tokens other
than the maximum has a product farther than `0.5` from the maximum
`100.00`, yet the emitted amount is the verbatim maximum `"100.00"` — not
the computed product `"6.00"` of the two smallest tokens that the claim
mandates when no pair is within tolerance. -/
theorem claim_C2_counterexample :
    (parseDetailsFromText "0001\n2.00\n3.00\n100.00".toList).map
      (fun r => (r.qty, r.price, r.amount)) =
      [("2.00".toList, "3.00".toList, "100.00".toList)] ∧
    (∀ l ∈ normalizeLines "0001\n2.00\n3.00\n100.00".toList,
      (nonCodeToks "0001".toList l).length < 2) ∧
    (∀ q ∈ (tokensBlock "0001".toList
        (normalizeLines "0001\n2.00\n3.00\n100.00".toList)).filter
          (fun t => !t.isCode),
      ∀ p ∈ (tokensBlock "0001".toList
        (normalizeLines "0001\n2.00\n3.00\n100.00".toList)).filter
          (fun t => !t.isCode),
      DecNum.blt DecNum.half ((q.value.mul p.value).sub ⟨10000, 2⟩).aval
          = true ∨
        q.text = "100.00".toList ∨ p.text = "100.00".toList) ∧
    formatAmount (DecNum.mul ⟨200, 2⟩ ⟨300, 2⟩) = "6.00".toList ∧
    "100.00".toList ≠ "6.00".toList :=
  ⟨by decide, by decide, by decide, by decide, by decide⟩

/-- C10 counterexample: in `"0001" / "令和1年2月" / "VendorX" / "0002"`
the era-year-month header lies inside the first block's span, so the scan
never reads it; the row of block `0002`, which begins after that header,
still carries the empty vendor instead of `"VendorX"`. -/
theorem claim_C10_counterexample :
    (parseDetailsFromText "0001\n令和1年2月\nVendorX\n0002".toList).map
      Row.vendor = [[], []] ∧
    isHeaderLine (trim "令和1年2月".toList) = true ∧
    firstVendor ["VendorX".toList, "0002".toList] = some "VendorX".toList ∧
    "VendorX".toList ≠ ([] : List Char) :=
  ⟨by decide, by decide, by decide, by decide⟩

-- ==================== summary extraction facts ====================

theorem collectNums_eq_take :
    ∀ (need : Nat) (ls : List (List Char)),
    collectNums need ls = (ls.filterMap lastTokText).take need := by
  intro need ls
  induction ls generalizing need with
  | nil => cases need <;> rfl
  | cons l rest ih =>
      cases need with
      | zero => cases h : lastTokText l <;> simp [collectNums, h]
      | succ k =>
          cases h : lastTokText l with
          | none => simp [collectNums, h, ih]
          | some t => simp [collectNums, h, ih]

theorem lastMarkerAux_none :
    ∀ (ls : List (List Char)), (∀ l ∈ ls, markerLine l = false) →
    ∀ i, lastMarkerAux ls i = none := by
  intro ls
  induction ls with
  | nil => intro _ i; rfl
  | cons l rest ih =>
      intro h i
      have hl := h l (List.mem_cons_self l rest)
      simp [lastMarkerAux, ih (fun x hx => h x (List.mem_cons_of_mem l hx)),
        hl]

theorem lastMarkerAux_append (m : List Char) (back : List (List Char))
    (hm : markerLine m = true)
    (hback : ∀ l ∈ back, markerLine l = false) :
    ∀ (front : List (List Char)) (i : Nat),
    lastMarkerAux (front ++ m :: back) i = some (i + front.length) := by
  intro front
  induction front with
  | nil =>
      intro i
      simp [lastMarkerAux, lastMarkerAux_none back hback, hm]
  | cons l front2 ih =>
      intro i
      simp only [List.cons_append, lastMarkerAux, List.append_eq, ih (i + 1)]
      simp
      omega

/-- C5 (summary extraction): scanning backward from the end, the lines
after the last remainder-blank marker — or, without a marker, the last ten
lines — contribute the final numeric token of each line, and the first
three collected numbers are read positionally as taxable base, total
(trailing sign stripped) and tax, everything blank when fewer than three
were found. -/
theorem claim_C5_summary (text : List Char) :
    (∀ (front back : List (List Char)) (m : List Char),
      normalizeLines text = front ++ m :: back →
      markerLine m = true → (∀ l ∈ back, markerLine l = false) →
      parseSummaryFromText text =
        summaryOfNums ((back.filterMap lastTokText).take 3)) ∧
    ((∀ l ∈ normalizeLines text, markerLine l = false) →
      parseSummaryFromText text =
        summaryOfNums ((((normalizeLines text).drop
          ((normalizeLines text).length - 10)).filterMap lastTokText).take 3)) := by
  constructor
  · intro front back m hsplit hm hback
    have hidx : lastMarkerIdx (front ++ m :: back) = some front.length := by
      rw [lastMarkerIdx, lastMarkerAux_append m back hm hback front 0]
      simp
    have hdrop : (front ++ m :: back).drop (front.length + 1) = back := by
      rw [show front ++ m :: back = (front ++ [m]) ++ back by simp,
        show front.length + 1 = (front ++ [m]).length by simp,
        List.drop_left]
    simp only [parseSummaryFromText, hsplit, hidx, hdrop,
      collectNums_eq_take]
    rcases htake : (back.filterMap lastTokText).take 3 with
      _ | ⟨a, _ | ⟨b, _ | ⟨c, _ | ⟨d, tl⟩⟩⟩⟩ <;> simp [summaryOfNums]
  · intro hnone
    have hidx : lastMarkerIdx (normalizeLines text) = none :=
      lastMarkerAux_none (normalizeLines text) hnone 0
    simp only [parseSummaryFromText, hidx, collectNums_eq_take]
    rcases htake : (((normalizeLines text).drop
        ((normalizeLines text).length - 10)).filterMap lastTokText).take 3 with
      _ | ⟨a, _ | ⟨b, _ | ⟨c, _ | ⟨d, tl⟩⟩⟩⟩ <;> simp [summaryOfNums]

/-- Witness for C5: the spec's summary scenario, marker line followed by
final tokens `969,582.00`, `\1,047,148-`, `77,566`. -/
theorem claim_C5_summary_witness :
    parseSummaryFromText
      "x\n-　以　下　余　白　-\n課税対象額 969,582.00\n合計 \\1,047,148-\n消費税 77,566".toList =
      ("969,582.00".toList, "77,566".toList, "1,047,148".toList) := by
  have h := (claim_C5_summary
    "x\n-　以　下　余　白　-\n課税対象額 969,582.00\n合計 \\1,047,148-\n消費税 77,566".toList).1
    ["x".toList]
    ["課税対象額 969,582.00".toList, "合計 \\1,047,148-".toList,
      "消費税 77,566".toList]
    "-　以　下　余　白　-".toList (by decide) (by decide) (by decide)
  rw [h]
  decide

-- ==================== consistency check facts ====================

theorem sumAmountsAux_toQ :
    ∀ (rows : List Row) (acc : DecNum),
    DecNum.toQ (rows.foldl
      (fun s r => match parseNumberSimple r.amount with
        | some v => s.add v
        | none => s) acc) = DecNum.toQ acc + amountSumQ rows := by
  intro rows
  induction rows with
  | nil => intro acc; simp [amountSumQ]
  | cons r rest ih =>
      intro acc
      cases h : parseNumberSimple r.amount with
      | none =>
          simp only [List.foldl_cons, h, ih, amountSumQ, List.filterMap_cons,
            h]
      | some v =>
          simp only [List.foldl_cons, h, ih, amountSumQ, List.filterMap_cons,
            h, List.map_cons, List.sum_cons, DecNum.toQ_add]
          ring

theorem sumAmounts_toQ (rows : List Row) :
    DecNum.toQ (sumAmounts rows) = amountSumQ rows := by
  rw [sumAmounts, sumAmountsAux_toQ, DecNum.toQ_zero, zero_add]

/-- C6 (consistency check): the match marker of the returned summary is
non-empty exactly when the printed taxable base parses and its value is
within `0.5` (strictly) of the sum of the parsed row amounts. -/
theorem claim_C6_match_mark (text : List Char) :
    (parseLedgerText text).2.baseCheckMark ≠ [] ↔
    ∃ b, parseNumberSimple (parseLedgerText text).2.base = some b ∧
      |DecNum.toQ b - amountSumQ (parseLedgerText text).1| < 1 / 2 := by
  have hsum := sumAmounts_toQ (parseDetailsFromText text)
  simp only [parseLedgerText]
  cases hb : parseNumberSimple (parseSummaryFromText text).1 with
  | none => simp [hb]
  | some bn =>
      simp only [hb, Option.some.injEq]
      by_cases hlt : DecNum.blt
        ((bn.sub (sumAmounts (parseDetailsFromText text))).aval)
        DecNum.half = true
      · have hq := (DecNum.blt_iff _ _).mp hlt
        rw [DecNum.toQ_aval, DecNum.toQ_sub, DecNum.toQ_half, hsum] at hq
        rw [if_pos hlt]
        constructor
        · intro _
          exact ⟨bn, rfl, hq⟩
        · intro _
          simp
      · have hq2 : ¬ (|DecNum.toQ bn -
            amountSumQ (parseDetailsFromText text)| < 1 / 2) := by
          intro hcon
          apply hlt
          rw [DecNum.blt_iff, DecNum.toQ_aval, DecNum.toQ_sub,
            DecNum.toQ_half, hsum]
          exact hcon
        rw [if_neg hlt]
        constructor
        · intro h
          exact absurd rfl h
        · rintro ⟨b, hbe, habs⟩
          cases hbe
          exact absurd habs hq2

-- ==================== whitespace-only input facts ====================

theorem isSpace_not_numChar (c : Char) (h : isSpace c = true) :
    isNumChar c = false := by
  simp only [isSpace, Bool.or_eq_true, beq_iff_eq] at h
  rcases h with (((((((h | h) | h) | h) | h) | h) | h) | h) <;> subst h <;>
    decide

theorem isSpace_ne_zero (c : Char) (h : isSpace c = true) : c ≠ '0' := by
  intro hc
  subst hc
  simp [isSpace] at h

theorem ws_trim (l : List Char) (h : l.all isSpace = true) : trim l = [] := by
  have h1 : l.dropWhile isSpace = [] :=
    List.dropWhile_eq_nil_iff.mpr (fun x hx => List.all_eq_true.mp h x hx)
  simp [trim, rtrim, h1]

theorem tokensAux_ws :
    ∀ (l : List Char) (i : Nat), l.all isSpace = true →
    tokensAux l i none = [] := by
  intro l
  induction l with
  | nil => intro i _; rfl
  | cons c cs ih =>
      intro i h
      simp only [List.all_cons, Bool.and_eq_true] at h
      have hc := isSpace_not_numChar c h.1
      simp [tokensAux, hc, ih (i + 1) h.2]

theorem findNumberTokens_ws (l : List Char) (h : l.all isSpace = true) :
    findNumberTokens l = [] := tokensAux_ws l 0 h

theorem codeHere_ne_zero (c : Char) (cs : List Char) (hc : c ≠ '0') :
    codeHere (c :: cs) = none := by
  rcases cs with _ | ⟨d1, _ | ⟨d2, _ | ⟨d3, rest⟩⟩⟩ <;> simp [codeHere, hc]

theorem codeMatchAux_ws :
    ∀ (l : List Char) (i : Nat), l.all isSpace = true →
    codeMatchAux l i = none := by
  intro l
  induction l with
  | nil => intro i _; rfl
  | cons c cs ih =>
      intro i h
      simp only [List.all_cons, Bool.and_eq_true] at h
      simp [codeMatchAux, codeHere_ne_zero c cs (isSpace_ne_zero c h.1),
        ih (i + 1) h.2]

theorem splitLinesAux_ws :
    ∀ (text cur : List Char), text.all isSpace = true →
    cur.all isSpace = true →
    ∀ l ∈ splitLinesAux text cur, l.all isSpace = true := by
  intro text cur
  induction text, cur using splitLinesAux.induct with
  | case1 cur =>
      intro _ hc l hl
      simp only [splitLinesAux] at hl
      rw [List.mem_singleton] at hl
      subst hl
      simpa [List.all_reverse] using hc
  | case2 cs cur ih =>
      intro ht hc l hl
      simp only [List.all_cons, Bool.and_eq_true] at ht
      simp only [splitLinesAux] at hl
      rcases List.mem_cons.mp hl with h1 | h2
      · subst h1
        simpa [List.all_reverse] using hc
      · exact ih ht.2.2 rfl l h2
  | case3 cs cur ih =>
      intro ht hc l hl
      simp only [List.all_cons, Bool.and_eq_true] at ht
      simp only [splitLinesAux] at hl
      rcases List.mem_cons.mp hl with h1 | h2
      · subst h1
        simpa [List.all_reverse] using hc
      · exact ih ht.2 rfl l h2
  | case4 cs cur hne ih =>
      intro ht hc l hl
      simp only [List.all_cons, Bool.and_eq_true] at ht
      rw [splitLinesAux.eq_4 cur cs hne] at hl
      rcases List.mem_cons.mp hl with h1 | h2
      · subst h1
        simpa [List.all_reverse] using hc
      · exact ih ht.2 rfl l h2
  | case5 c cs cur hne1 hne2 hne3 ih =>
      intro ht hc l hl
      simp only [List.all_cons, Bool.and_eq_true] at ht
      rw [splitLinesAux.eq_5 cur c cs hne1 hne2 hne3] at hl
      exact ih ht.2 (by simp [ht.1, hc]) l hl

theorem normalizeLines_ws (text : List Char) (h : text.all isSpace = true) :
    ∀ l ∈ normalizeLines text, l.all isSpace = true :=
  splitLinesAux_ws text [] h rfl

theorem markerLine_ws (l : List Char) (h : l.all isSpace = true) :
    markerLine l = false := by
  simp [markerLine, ws_trim l h, isSubstr, mkI, mkYo]

theorem goRows_ws :
    ∀ (fuel : Nat) (v : List Char) (ls : List (List Char)),
    (∀ l ∈ ls, l.all isSpace = true) → goRows fuel v ls = [] := by
  intro fuel
  induction fuel with
  | zero => intro v ls _; rfl
  | succ n ih =>
      intro v ls h
      cases ls with
      | nil => rfl
      | cons l rest =>
          have hl := h l (List.mem_cons_self l rest)
          have htrim := ws_trim l hl
          have hhdr : isHeaderLine (trim l) = false := by
            rw [htrim]
            decide
          have hcm : codeMatch l = none := codeMatchAux_ws l 0 hl
          have hhdr2 : isHeaderLine ([] : List Char) = false := by decide
          simp [goRows, hhdr, htrim, hcm, hhdr2,
            ih v rest (fun x hx => h x (List.mem_cons_of_mem l hx))]

/-- C7 (totality on blank input): the parse of a whitespace-only text —
the empty text included — is total and yields no rows and an all-blank,
all-zero summary.  Totality for arbitrary text is by construction: the
embedding is a total function. -/
theorem claim_C7_totality (text : List Char) (h : text.all isSpace = true) :
    parseLedgerText text = ([], ⟨[], [], [], DecNum.zero, [], []⟩) := by
  have hlines := normalizeLines_ws text h
  have hrows : parseDetailsFromText text = [] := goRows_ws _ [] _ hlines
  have hsummary : parseSummaryFromText text = ([], [], []) := by
    have hidx : lastMarkerIdx (normalizeLines text) = none :=
      lastMarkerAux_none _ (fun l hl => markerLine_ws l (hlines l hl)) 0
    have hnone : ∀ l ∈ (normalizeLines text).drop
        ((normalizeLines text).length - 10), lastTokText l = none := by
      intro l hl
      have hws := hlines l (List.drop_subset _ _ hl)
      simp [lastTokText, findNumberTokens, tokensAux_ws l 0 hws]
    simp only [parseSummaryFromText, hidx, collectNums_eq_take,
      List.filterMap_eq_nil_iff.mpr hnone]
    rfl
  simp only [parseLedgerText, hrows, hsummary]
  rfl

/-- Witness for C7: a concrete whitespace-only input (space, newline,
ideographic space). -/
theorem claim_C7_totality_witness :
    parseLedgerText " \n　".toList = ([], ⟨[], [], [], DecNum.zero, [], []⟩) :=
  claim_C7_totality " \n　".toList (by decide)

-- ==================== name and unit facts ====================

/-- C9 (name/unit assembly): the scenario block `"0003" / "苺タルト" /
"EA"` yields name `苺タルト` and unit `EA`; and in general, lines with
neither a numeric token nor a unit token are appended whole (trimmed) to
the name, the first unit line contributes its text before the unit and
stops accumulation fixing the unit, and a numeric line without a unit
contributes its text before the first number and stops accumulation. -/
theorem claim_C9_name_unit :
    parseDetailsFromText "0003\n苺タルト\nEA".toList =
      [⟨[], "0003".toList, "苺タルト".toList, [], "EA".toList, [], [], [],
        []⟩] ∧
    (∀ (quiet rest : List (List Char)),
      (∀ l ∈ quiet, trim l ≠ [] ∧ unitMatch (trim l) = none ∧
        findNumberTokens l = []) →
      nameScan (quiet ++ rest) =
        (quiet.map trim ++ (nameScan rest).1, (nameScan rest).2)) ∧
    (∀ (l : List Char) (rest : List (List Char)) (uIdx : Nat)
      (u : List Char), trim l ≠ [] → unitMatch (trim l) = some (uIdx, u) →
      nameScan (l :: rest) =
        ((if (rtrim ((trim l).take uIdx)).isEmpty then []
          else [rtrim ((trim l).take uIdx)]), u)) ∧
    (∀ (l : List Char) (rest : List (List Char)) (tk : NumTok)
      (tks : List NumTok), trim l ≠ [] → unitMatch (trim l) = none →
      findNumberTokens l = tk :: tks →
      nameScan (l :: rest) =
        ((if (trim (l.take tk.index)).isEmpty then []
          else [trim (l.take tk.index)]), [])) := by
  refine ⟨by decide, ?_, ?_, ?_⟩
  · intro quiet rest hq
    induction quiet with
    | nil => simp
    | cons l qs ih =>
        obtain ⟨hne, hum, htk⟩ := hq l (List.mem_cons_self l qs)
        have ihr := ih (fun x hx => hq x (List.mem_cons_of_mem l hx))
        simp only [List.cons_append, nameScan, htk, hum]
        rw [if_neg (by simpa [List.isEmpty_iff] using hne)]
        simp [ihr]
  · intro l rest uIdx u hne hum
    simp only [nameScan, hum]
    rw [if_neg (by simpa [List.isEmpty_iff] using hne)]
  · intro l rest tk tks hne hum htk
    simp only [nameScan, hum, htk]
    rw [if_neg (by simpa [List.isEmpty_iff] using hne)]

/-- Witness for C9: the quiet-line clause applied to the scenario lines
`"苺タルト"` then `"EA"`. -/
theorem claim_C9_name_unit_witness :
    nameScan (["苺タルト".toList] ++ ["EA".toList]) =
      (["苺タルト".toList].map trim ++ (nameScan ["EA".toList]).1,
        (nameScan ["EA".toList]).2) :=
  claim_C9_name_unit.2.1 ["苺タルト".toList] ["EA".toList] (by decide)

-- ==================== vendor facts ====================

theorem goRows_no_header :
    ∀ (fuel : Nat) (v : List Char) (ls : List (List Char)),
    (∀ l ∈ ls, isHeaderLine (trim l) = false) →
    ∀ row ∈ goRows fuel v ls, row.vendor = v := by
  intro fuel
  induction fuel with
  | zero =>
      intro v ls _ row hrow
      simp [goRows] at hrow
  | succ n ih =>
      intro v ls h row hrow
      cases ls with
      | nil => simp [goRows] at hrow
      | cons l rest =>
          have hl := h l (List.mem_cons_self l rest)
          have hrest : ∀ x ∈ rest, isHeaderLine (trim x) = false :=
            fun x hx => h x (List.mem_cons_of_mem l hx)
          simp only [goRows, hl, Bool.false_eq_true, if_false] at hrow
          by_cases hempty : (trim l).isEmpty = true
          · rw [if_pos hempty] at hrow
            exact ih v rest hrest row hrow
          · rw [if_neg hempty] at hrow
            cases hcm : codeMatch l with
            | none =>
                rw [hcm] at hrow
                exact ih v rest hrest row hrow
            | some p =>
                rw [hcm] at hrow
                rcases List.mem_cons.mp hrow with h1 | h2
                · subst h1
                  rfl
                · exact ih v (rest.drop (blockRest rest))
                    (fun x hx => hrest x (List.drop_subset _ _ hx)) row h2

theorem goRows_last_header (h vx : List Char) (rest : List (List Char))
    (hh : isHeaderLine (trim h) = true)
    (hrest : ∀ l ∈ rest, isHeaderLine (trim l) = false)
    (hfv : firstVendor rest = some vx) :
    ∀ (fuel : Nat) (pre : List (List Char)) (v : List Char),
    (∀ l ∈ pre, codeMatch l = none) →
    ∀ row ∈ goRows fuel v (pre ++ h :: rest), row.vendor = vx := by
  intro fuel
  induction fuel with
  | zero =>
      intro pre v _ row hrow
      simp [goRows] at hrow
  | succ n ih =>
      intro pre v hpre row hrow
      cases pre with
      | nil =>
          simp only [List.nil_append, goRows] at hrow
          rw [if_pos hh, hfv] at hrow
          exact goRows_no_header n vx rest hrest row (by simpa using hrow)
      | cons l pre2 =>
          have hl := hpre l (List.mem_cons_self l pre2)
          have hpre2 : ∀ x ∈ pre2, codeMatch x = none :=
            fun x hx => hpre x (List.mem_cons_of_mem l hx)
          simp only [List.cons_append, goRows] at hrow
          by_cases hhl : isHeaderLine (trim l) = true
          · rw [if_pos hhl] at hrow
            exact ih pre2 _ hpre2 row hrow
          · rw [if_neg hhl] at hrow
            by_cases hempty : (trim l).isEmpty = true
            · rw [if_pos hempty] at hrow
              exact ih pre2 v hpre2 row hrow
            · rw [if_neg hempty] at hrow
              rw [hl] at hrow
              exact ih pre2 v hpre2 row hrow

/-- C10 (amended): vendor is always a defined string.  (i) With no
era-year-month header line anywhere, every row's vendor is the empty
initial vendor.  (ii) In general, whenever the top-level scan reaches a
header line `h` — nothing before it anchors a block — and no header line
follows it, every emitted row's vendor is the trimmed first non-blank
line after `h`: the most recent reached header wins, whatever vendor
state, earlier headers or titles came before.  (iii) Reaching a header
replaces the running vendor by the trimmed first following non-blank
line, keeping the old vendor when none exists, for every vendor state and
every remaining input.  (iv) An emitted row always carries the running
vendor verbatim, and the scan jumps the whole block span, so header lines
inside it are never reached.  (v) Concretely, with two reached headers
the three rows carry the empty vendor, then `V1`, then `V2`. -/
theorem claim_C10_vendor :
    (∀ (text : List Char),
      (∀ l ∈ normalizeLines text, isHeaderLine (trim l) = false) →
      ∀ row ∈ parseDetailsFromText text, row.vendor = []) ∧
    (∀ (text : List Char) (pre rest : List (List Char)) (h vx : List Char),
      normalizeLines text = pre ++ h :: rest →
      (∀ l ∈ pre, codeMatch l = none) →
      isHeaderLine (trim h) = true →
      (∀ l ∈ rest, isHeaderLine (trim l) = false) →
      firstVendor rest = some vx →
      ∀ row ∈ parseDetailsFromText text, row.vendor = vx) ∧
    (∀ (fuel : Nat) (v h : List Char) (rest : List (List Char)),
      isHeaderLine (trim h) = true →
      goRows (fuel + 1) v (h :: rest) =
        goRows fuel ((firstVendor rest).getD v) rest) ∧
    (∀ (fuel : Nat) (v l : List Char) (rest : List (List Char))
      (mIdx : Nat) (code : List Char),
      isHeaderLine (trim l) = false → trim l ≠ [] →
      codeMatch l = some (mIdx, code) →
      goRows (fuel + 1) v (l :: rest) =
        buildRow v code l mIdx (rest.take (blockRest rest)) ::
          goRows fuel v (rest.drop (blockRest rest)) ∧
      (buildRow v code l mIdx (rest.take (blockRest rest))).vendor = v) ∧
    (parseDetailsFromText
      "0001\n納入台帳\n令和1年1月\nV1\n0002\n納入台帳\n令和2年2月\nV2\n0003".toList).map
      (fun r => (r.no, r.vendor)) =
      [("0001".toList, []), ("0002".toList, "V1".toList),
        ("0003".toList, "V2".toList)] := by
  refine ⟨?_, ?_, ?_, ?_, by decide⟩
  · intro text hnone row hrow
    exact goRows_no_header _ [] _ hnone row hrow
  · intro text pre rest h vx hsplit hpre hh hrest hfv row hrow
    rw [parseDetailsFromText, hsplit] at hrow
    exact goRows_last_header h vx rest hh hrest hfv _ pre [] hpre row hrow
  · intro fuel v h rest hh
    simp only [goRows]
    rw [if_pos hh]
  · intro fuel v l rest mIdx code hhf hne hcm
    have hempty : (trim l).isEmpty = false := by
      simpa [List.isEmpty_iff] using hne
    constructor
    · simp only [goRows]
      rw [if_neg (by simp [hhf]), if_neg (by simp [hempty]), hcm]
    · rfl

/-- Witness for C10: the most-recent-reached-header rule applied at a
concrete text — a ledger-title line, then a header, then the vendor line,
then a block; the emitted row's vendor is the trimmed line after the
header. -/
theorem claim_C10_vendor_witness :
    (parseDetailsFromText "納入台帳\n令和1年2月\nVendorX\n0001".toList).map
      Row.vendor = ["VendorX".toList] := by
  have h := claim_C10_vendor.2.1 "納入台帳\n令和1年2月\nVendorX\n0001".toList
    ["納入台帳".toList] ["VendorX".toList, "0001".toList]
    "令和1年2月".toList "VendorX".toList
    (by decide) (by decide) (by decide) (by decide) (by decide)
  have he : parseDetailsFromText "納入台帳\n令和1年2月\nVendorX\n0001".toList =
      [⟨"VendorX".toList, "0001".toList, [], [], [], [], [], [], []⟩] := by
    decide
  rw [he] at h ⊢
  simp [h _ (List.mem_cons_self _ _)]

-- ==================== field character-class facts ====================

theorem comma_numChar : isNumChar ',' = true := by decide

theorem digitChar_numChar (k : Nat) (h : k < 10) :
    isNumChar (Char.ofNat (48 + k)) = true := by
  interval_cases k <;> decide

theorem natDigitsRev_ok : ∀ (fuel n : Nat),
    (natDigitsRev fuel n).all isNumChar = true := by
  intro fuel
  induction fuel with
  | zero => intro n; rfl
  | succ f ih =>
      intro n
      by_cases h : n = 0
      · simp [natDigitsRev, h]
      · simp [natDigitsRev, h, ih (n / 10),
          digitChar_numChar (n % 10) (Nat.mod_lt n (by omega))]

theorem natToDigits_ok (n : Nat) : (natToDigits n).all isNumChar = true := by
  by_cases h : n = 0
  · subst h; decide
  · simp [natToDigits, h, List.all_reverse, natDigitsRev_ok]

theorem groupRev_ok : ∀ (l : List Char) (k : Nat), l.all isNumChar = true →
    (groupRev k l).all isNumChar = true := by
  intro l
  induction l with
  | nil => intro k _; rfl
  | cons c cs ih =>
      intro k h
      simp only [List.all_cons, Bool.and_eq_true] at h
      by_cases hk : k = 3 <;>
        simp [groupRev, hk, h.1, ih _ h.2, comma_numChar]

theorem formatAmount_ok (q : DecNum) :
    (formatAmount q).all isNumChar = true := by
  have h1 : ((groupRev 0 (natToDigits
      ((roundHalfAway ⟨q.num * 100, q.exp⟩).natAbs / 100)).reverse).reverse).all
      isNumChar = true := by
    rw [List.all_reverse]
    refine groupRev_ok _ 0 ?_
    rw [List.all_reverse]
    exact natToDigits_ok _
  have h2 := digitChar_numChar
    ((roundHalfAway ⟨q.num * 100, q.exp⟩).natAbs % 100 / 10) (by omega)
  have h3 := digitChar_numChar
    ((roundHalfAway ⟨q.num * 100, q.exp⟩).natAbs % 10) (by omega)
  by_cases hm : roundHalfAway ⟨q.num * 100, q.exp⟩ < 0 <;>
    simp [formatAmount, hm, List.all_append, h1, h2, h3] <;> decide

theorem lineVals_text_ok (l : List Char) (p : List Char × DecNum)
    (h : p ∈ lineVals l) : p.1.all isNumChar = true := by
  simp only [lineVals, List.mem_filterMap] at h
  obtain ⟨tok, htok, hmap⟩ := h
  rcases hv : parseNumberSimple tok.text with _ | v <;> rw [hv] at hmap
  · simp at hmap
  · simp only [Option.map_some', Option.some.injEq] at hmap
    rw [← hmap]
    exact (findNumberTokens_text_ok l tok htok).2

theorem tokensBlock_text_ok (code : List Char) (ls : List (List Char))
    (t : VTok) (h : t ∈ tokensBlock code ls) :
    t.text.all isNumChar = true := by
  simp only [tokensBlock, List.mem_map] at h
  obtain ⟨⟨i, p⟩, hip, ht⟩ := h
  have h1 := List.mem_enum hip
  have hp : p ∈ (ls.map lineVals).flatten := by
    rw [h1.2]
    exact List.getElem_mem _
  rw [List.mem_flatten] at hp
  obtain ⟨chunk, hchunk, hpc⟩ := hp
  rw [List.mem_map] at hchunk
  obtain ⟨l, hl, hcl⟩ := hchunk
  subst hcl
  rw [← ht]
  exact lineVals_text_ok l p hpc

theorem nonCodeToks_sub (code l : List Char) (t : NumTok)
    (h : t ∈ nonCodeToks code l) : t ∈ findNumberTokens l :=
  List.mem_of_mem_filter h

theorem findAmountText_ok (code : List Char) :
    ∀ (ls : List (List Char)) (a : List Char),
    findAmountText code ls = some a → a.all isNumChar = true := by
  intro ls
  induction ls with
  | nil => intro a h; simp [findAmountText] at h
  | cons l rest ih =>
      intro a h
      simp only [findAmountText] at h
      cases hg : (nonCodeToks code l).getLast? with
      | none =>
          rw [hg] at h
          exact ih a h
      | some t =>
          rw [hg] at h
          injection h with h2
          subst h2
          exact (findNumberTokens_text_ok l t
            (nonCodeToks_sub code l t (List.mem_of_mem_getLast? hg))).2

theorem findLastPair_src (code : List Char) :
    ∀ (ls : List (List Char)) (nc : List NumTok) (rest : List (List Char)),
    findLastPair code ls = some (nc, rest) →
    ∃ l, nc = nonCodeToks code l := by
  intro ls
  induction ls with
  | nil => intro nc rest h; simp [findLastPair] at h
  | cons l ls2 ih =>
      intro nc rest h
      simp only [findLastPair] at h
      cases hr : findLastPair code ls2 with
      | some r2 =>
          rw [hr] at h
          injection h with h2
          subst h2
          exact ih nc rest hr
      | none =>
          rw [hr] at h
          by_cases h2 : 2 ≤ (nonCodeToks code l).length
          · rw [if_pos h2] at h
            injection h with h3
            injection h3 with ha hb
            exact ⟨l, ha.symm⟩
          · rw [if_neg h2] at h
            cases h

theorem pairFields_ok (code : List Char) (bl : List (List Char))
    (q p a : List Char) (h : pairFields code bl = some (q, p, a)) :
    q.all isNumChar = true ∧ p.all isNumChar = true ∧
    a.all isNumChar = true := by
  simp only [pairFields] at h
  cases hf : findLastPair code bl with
  | none => rw [hf] at h; simp at h
  | some r =>
      obtain ⟨nc, rest⟩ := r
      obtain ⟨lsrc, hlsrc⟩ := findLastPair_src code bl nc rest hf
      have hncok : ∀ t ∈ nc, t.text.all isNumChar = true := by
        intro t ht
        rw [hlsrc] at ht
        exact (findNumberTokens_text_ok lsrc t
          (nonCodeToks_sub code lsrc t ht)).2
      rw [hf] at h
      simp only [Option.some.injEq, Prod.ext_iff] at h
      obtain ⟨hq, hp, ha⟩ := h
      refine ⟨?_, ?_, ?_⟩
      · rw [← hq]
        cases hge : nc.get? (nc.length - 2) with
        | none => simp [hge]
        | some tok =>
            simp only [hge, Option.map_some', Option.getD_some]
            exact hncok tok (List.get?_mem hge)
      · rw [← hp]
        cases hgl : nc.getLast? with
        | none => simp [hgl]
        | some tok =>
            simp only [hgl, Option.map_some', Option.getD_some]
            exact hncok tok (List.mem_of_mem_getLast? hgl)
      · rw [← ha]
        cases hfa : findAmountText code rest with
        | some x =>
            simp only [hfa]
            exact findAmountText_ok code rest x hfa
        | none =>
            simp only [hfa]
            cases hv1 : parseNumberSimple
                ((Option.map NumTok.text (nc.get? (nc.length - 2))).getD []) with
            | none =>
                cases hv2 : parseNumberSimple
                    ((Option.map NumTok.text nc.getLast?).getD []) with
                | none => simp [hv1, hv2]
                | some pv => simp [hv1, hv2]
            | some qv =>
                cases hv2 : parseNumberSimple
                    ((Option.map NumTok.text nc.getLast?).getD []) with
                | none => simp [hv1, hv2]
                | some pv => simp [hv1, hv2, formatAmount_ok]

theorem foldl_max_mem :
    ∀ (xs : List VTok) (b : VTok),
    xs.foldl (fun b x => if DecNum.blt b.value x.value then x else b) b ∈
      b :: xs := by
  intro xs
  induction xs with
  | nil => intro b; simp
  | cons x xs2 ih =>
      intro b
      simp only [List.foldl_cons]
      by_cases hc : DecNum.blt b.value x.value = true
      · rw [if_pos hc]
        rcases List.mem_cons.mp (ih x) with h1 | h2
        · simp [h1]
        · simp [List.mem_cons_of_mem, h2]
      · rw [if_neg hc]
        rcases List.mem_cons.mp (ih b) with h1 | h2
        · simp [h1]
        · simp [List.mem_cons_of_mem, h2]

theorem firstMax_mem (l : List VTok) (t : VTok) (h : firstMax l = some t) :
    t ∈ l := by
  cases l with
  | nil => simp [firstMax] at h
  | cons a as =>
      simp only [firstMax, Option.some.injEq] at h
      rw [← h]
      exact foldl_max_mem as a

theorem insertAsc_mem (x : VTok) :
    ∀ (l : List VTok) (y : VTok), y ∈ insertAsc x l → y = x ∨ y ∈ l := by
  intro l
  induction l with
  | nil => intro y h; simpa [insertAsc] using h
  | cons z zs ih =>
      intro y h
      simp only [insertAsc] at h
      by_cases hc : DecNum.blt z.value x.value = true
      · rw [if_pos hc] at h
        rcases List.mem_cons.mp h with h1 | h2
        · exact Or.inr (by simp [h1])
        · rcases ih y h2 with h3 | h4
          · exact Or.inl h3
          · exact Or.inr (List.mem_cons_of_mem z h4)
      · rw [if_neg hc] at h
        rcases List.mem_cons.mp h with h1 | h2
        · exact Or.inl h1
        · exact Or.inr h2

theorem sortAsc_mem :
    ∀ (l : List VTok) (y : VTok), y ∈ sortAsc l → y ∈ l := by
  intro l
  induction l with
  | nil => intro y h; simp [sortAsc] at h
  | cons z zs ih =>
      intro y h
      simp only [sortAsc, List.foldr_cons] at h
      rcases insertAsc_mem z _ y h with h1 | h2
      · simp [h1]
      · exact List.mem_cons_of_mem z (ih y h2)

theorem orderedPairs_mem (cand : List VTok) (qp : VTok × VTok)
    (h : qp ∈ orderedPairs cand) : qp.1 ∈ cand ∧ qp.2 ∈ cand := by
  simp only [orderedPairs, List.mem_flatten, List.mem_map] at h
  obtain ⟨chunk, ⟨⟨i, q⟩, hqe, hche⟩, hqp⟩ := h
  subst hche
  rw [List.mem_filterMap] at hqp
  obtain ⟨⟨j, p⟩, hpe, hif⟩ := hqp
  by_cases hne : j ≠ i
  · rw [if_pos hne] at hif
    injection hif with h2
    subst h2
    constructor
    · have hq := List.mem_enum hqe
      rw [hq.2]
      exact List.getElem_mem _
    · have hp := List.mem_enum hpe
      rw [hp.2]
      exact List.getElem_mem _
  · rw [if_neg hne] at hif
    cases hif

theorem bestStep_cases (amt : DecNum) (st : BestSt) (qp : VTok × VTok) :
    bestStep amt st qp = st ∨
    ((bestStep amt st qp).bestDiff.isSome = true ∧
      (bestStep amt st qp).bestQ = some qp.1 ∧
      (bestStep amt st qp).bestP = some qp.2) := by
  unfold bestStep
  dsimp only
  repeat' split
  all_goals first
    | (left; rfl)
    | (right; exact ⟨rfl, rfl, rfl⟩)
    | (right; exact ⟨(by assumption : (_ : Option DecNum) = some _) ▸ rfl,
        rfl, rfl⟩)

theorem bestStep_mem (amt : DecNum) (cand : List VTok) (st : BestSt)
    (qp : VTok × VTok) (hq : qp.1 ∈ cand) (hp : qp.2 ∈ cand)
    (h1 : ∀ q, st.bestQ = some q → q ∈ cand)
    (h2 : ∀ p, st.bestP = some p → p ∈ cand) :
    (∀ q, (bestStep amt st qp).bestQ = some q → q ∈ cand) ∧
    (∀ p, (bestStep amt st qp).bestP = some p → p ∈ cand) := by
  rcases bestStep_cases amt st qp with hcase | ⟨_, hcq, hcp⟩
  · rw [hcase]
    exact ⟨h1, h2⟩
  · constructor
    · intro q hq2
      rw [hcq] at hq2
      injection hq2 with h3
      exact h3 ▸ hq
    · intro p hp2
      rw [hcp] at hp2
      injection hp2 with h3
      exact h3 ▸ hp

theorem runBest_mem (amt : DecNum) (cand : List VTok) :
    ∀ (prs : List (VTok × VTok)) (st : BestSt),
    (∀ x ∈ prs, x.1 ∈ cand ∧ x.2 ∈ cand) →
    (∀ q, st.bestQ = some q → q ∈ cand) →
    (∀ p, st.bestP = some p → p ∈ cand) →
    (∀ q, (prs.foldl (bestStep amt) st).bestQ = some q → q ∈ cand) ∧
    (∀ p, (prs.foldl (bestStep amt) st).bestP = some p → p ∈ cand) := by
  intro prs
  induction prs with
  | nil => intro st _ h1 h2; exact ⟨h1, h2⟩
  | cons x xs ih =>
      intro st hx h1 h2
      have hx1 := hx x (List.mem_cons_self x xs)
      have hst := bestStep_mem amt cand st x hx1.1 hx1.2 h1 h2
      simp only [List.foldl_cons]
      exact ih (bestStep amt st x)
        (fun y hy => hx y (List.mem_cons_of_mem x hy)) hst.1 hst.2

theorem fallbackFields_ok (toks : List VTok)
    (htoks : ∀ t ∈ toks, t.text.all isNumChar = true) :
    (fallbackFields toks).1.all isNumChar = true ∧
    (fallbackFields toks).2.1.all isNumChar = true ∧
    (fallbackFields toks).2.2.all isNumChar = true := by
  unfold fallbackFields
  dsimp only
  by_cases h3 : 3 ≤ toks.length
  · rw [if_pos h3]
    cases hfm : firstMax toks with
    | none => exact ⟨rfl, rfl, rfl⟩
    | some amtTok =>
        dsimp only
        have hamem := htoks amtTok (firstMax_mem toks amtTok hfm)
        set st := (if 2 ≤ (candidatesOf amtTok toks).length then
          runBest amtTok.value (orderedPairs (candidatesOf amtTok toks))
          else (⟨none, none, none⟩ : BestSt)) with hst
        have hmem : (∀ q, st.bestQ = some q → q ∈ toks) ∧
            (∀ p, st.bestP = some p → p ∈ toks) := by
          rw [hst]
          split_ifs with hcl
          · have h := runBest_mem amtTok.value (candidatesOf amtTok toks)
              (orderedPairs (candidatesOf amtTok toks)) ⟨none, none, none⟩
              (fun x hx => orderedPairs_mem _ x hx)
              (fun q hq => by cases hq) (fun p hp => by cases hp)
            exact ⟨fun q hq => List.mem_of_mem_filter (h.1 q hq),
              fun p hp => List.mem_of_mem_filter (h.2 p hp)⟩
          · exact ⟨(fun q hq => by cases hq), (fun p hp => by cases hp)⟩
        cases hbq : st.bestQ with
        | some bq =>
            cases hbp : st.bestP with
            | some bp =>
                dsimp only
                exact ⟨htoks bq (hmem.1 bq hbq), htoks bp (hmem.2 bp hbp),
                  hamem⟩
            | none =>
                dsimp only
                cases hsa : sortAsc toks with
                | nil => exact ⟨rfl, rfl, hamem⟩
                | cons q3 rest =>
                    cases rest with
                    | nil => exact ⟨rfl, rfl, hamem⟩
                    | cons p3 rest2 =>
                        refine ⟨htoks q3 (sortAsc_mem toks q3 ?_),
                          htoks p3 (sortAsc_mem toks p3 ?_),
                          formatAmount_ok _⟩
                        · rw [hsa]
                          exact List.mem_cons_self _ _
                        · rw [hsa]
                          exact List.mem_cons_of_mem q3
                            (List.mem_cons_self _ _)
        | none =>
            dsimp only
            cases hsa : sortAsc toks with
            | nil => exact ⟨rfl, rfl, hamem⟩
            | cons q3 rest =>
                cases rest with
                | nil => exact ⟨rfl, rfl, hamem⟩
                | cons p3 rest2 =>
                    refine ⟨htoks q3 (sortAsc_mem toks q3 ?_),
                      htoks p3 (sortAsc_mem toks p3 ?_),
                      formatAmount_ok _⟩
                    · rw [hsa]
                      exact List.mem_cons_self _ _
                    · rw [hsa]
                      exact List.mem_cons_of_mem q3 (List.mem_cons_self _ _)
  · rw [if_neg h3]
    rcases toks with _ | ⟨tA, _ | ⟨tB, _ | ⟨tX, rest⟩⟩⟩
    · exact ⟨rfl, rfl, rfl⟩
    · exact ⟨htoks tA (List.mem_cons_self _ _), rfl, rfl⟩
    · dsimp only
      by_cases hc : DecNum.ble tA.value tB.value = true
      · rw [if_pos hc]
        exact ⟨htoks tA (List.mem_cons_self _ _),
          htoks tB (List.mem_cons_of_mem tA (List.mem_cons_self _ _)),
          formatAmount_ok _⟩
      · rw [if_neg hc]
        exact ⟨htoks tB (List.mem_cons_of_mem tA (List.mem_cons_self _ _)),
          htoks tA (List.mem_cons_self _ _), formatAmount_ok _⟩
    · exact absurd (by simp) h3

theorem detailFields_ok (code : List Char) (bl : List (List Char)) :
    (detailFields code bl).1.all isNumChar = true ∧
    (detailFields code bl).2.1.all isNumChar = true ∧
    (detailFields code bl).2.2.all isNumChar = true := by
  unfold detailFields
  cases hpf : pairFields code bl with
  | some r =>
      obtain ⟨q, p, a⟩ := r
      exact pairFields_ok code bl q p a hpf
  | none =>
      exact fallbackFields_ok _ (fun t ht =>
        tokensBlock_text_ok code bl t (List.mem_of_mem_filter ht))

theorem goRows_rows_src :
    ∀ (fuel : Nat) (v : List Char) (ls : List (List Char)),
    ∀ row ∈ goRows fuel v ls,
    ∃ v2 mIdx code line body, codeMatch line = some (mIdx, code) ∧
      row = buildRow v2 code line mIdx body := by
  intro fuel
  induction fuel with
  | zero =>
      intro v ls row hrow
      simp [goRows] at hrow
  | succ n ih =>
      intro v ls row hrow
      cases ls with
      | nil => simp [goRows] at hrow
      | cons l rest =>
          simp only [goRows] at hrow
          by_cases hhdr : isHeaderLine (trim l) = true
          · rw [if_pos hhdr] at hrow
            exact ih _ rest row hrow
          · rw [if_neg hhdr] at hrow
            by_cases hempty : (trim l).isEmpty = true
            · rw [if_pos hempty] at hrow
              exact ih v rest row hrow
            · rw [if_neg hempty] at hrow
              cases hcm : codeMatch l with
              | none =>
                  rw [hcm] at hrow
                  exact ih v rest row hrow
              | some p =>
                  rw [hcm] at hrow
                  rcases List.mem_cons.mp hrow with h1 | h2
                  · exact ⟨v, p.1, p.2, l, rest.take (blockRest rest),
                      by rw [hcm], h1⟩
                  · exact ih v (rest.drop (blockRest rest)) row h2

/-- C4 (amended): every quantity, unit-price and amount field of every
emitted row is a (possibly empty) string over the lexer's number-token
character class. -/
theorem claim_C4_field_chars (text : List Char) :
    ∀ row ∈ parseDetailsFromText text,
    row.qty.all isNumChar = true ∧ row.price.all isNumChar = true ∧
    row.amount.all isNumChar = true := by
  intro row hrow
  obtain ⟨v2, mIdx, code, line, body, hcm, hbr⟩ :=
    goRows_rows_src _ [] _ row hrow
  subst hbr
  exact detailFields_ok code (line :: body)

/-- Witness for C4: the fields of the sole row of the block
`"0001" / ". ."` lie in the number character class. -/
theorem claim_C4_field_chars_witness :
    (['.'].all isNumChar = true ∧ ['.'].all isNumChar = true ∧
      ([] : List Char).all isNumChar = true) := by
  have he : parseDetailsFromText "0001\n. .".toList =
      [⟨[], "0001".toList, [], [], [], ['.'], ['.'], [], []⟩] := by decide
  have h := claim_C4_field_chars "0001\n. .".toList
    ⟨[], "0001".toList, [], [], [], ['.'], ['.'], [], []⟩
    (by rw [he]; exact List.mem_cons_self _ _)
  exact h

-- ==================== code-shape facts ====================

theorem codeHere_shape (l : List Char) (code : List Char)
    (h : codeHere l = some code) :
    code.length = 4 ∧ code.head? = some '0' ∧
    code.all Char.isDigit = true := by
  rcases l with _ | ⟨c, _ | ⟨d1, _ | ⟨d2, _ | ⟨d3, rest⟩⟩⟩⟩ <;>
    simp only [codeHere] at h <;> try cases h
  split_ifs at h with hcond
  injection h with h2
  subst h2
  obtain ⟨hc0, hd1, hd2, hd3, _⟩ := hcond
  subst hc0
  simp [hd1, hd2, hd3]

theorem codeMatchAux_shape :
    ∀ (l : List Char) (i mIdx : Nat) (code : List Char),
    codeMatchAux l i = some (mIdx, code) →
    code.length = 4 ∧ code.head? = some '0' ∧
    code.all Char.isDigit = true := by
  intro l
  induction l with
  | nil => intro i mIdx code h; simp [codeMatchAux] at h
  | cons c cs ih =>
      intro i mIdx code h
      simp only [codeMatchAux] at h
      cases hch : codeHere (c :: cs) with
      | some t =>
          rw [hch] at h
          injection h with h2
          injection h2 with ha hb
          subst hb
          exact codeHere_shape (c :: cs) t hch
      | none =>
          rw [hch] at h
          exact ih (i + 1) mIdx code h

/-- C8 (amended): every emitted row's code is the exact 4-character token
matched by the code regex — it starts with `'0'` and is all digits. -/
theorem claim_C8_code_shape (text : List Char) :
    ∀ row ∈ parseDetailsFromText text,
    row.no.length = 4 ∧ row.no.head? = some '0' ∧
    row.no.all Char.isDigit = true := by
  intro row hrow
  obtain ⟨v2, mIdx, code, line, body, hcm, hbr⟩ :=
    goRows_rows_src _ [] _ row hrow
  subst hbr
  exact codeMatchAux_shape line 0 mIdx code hcm

/-- Witness for C8: the line `"50234"` anchors a block (despite the digit
before the match) and its code `"0234"` has the required shape. -/
theorem claim_C8_code_shape_witness :
    "0234".toList.length = 4 ∧ "0234".toList.head? = some '0' ∧
    "0234".toList.all Char.isDigit = true := by
  have he : parseDetailsFromText "50234".toList =
      [⟨[], "0234".toList, [], [], [], "50234".toList, [], [], []⟩] := by
    decide
  have h := claim_C8_code_shape "50234".toList
    ⟨[], "0234".toList, [], [], [], "50234".toList, [], [], []⟩
    (by rw [he]; exact List.mem_cons_self _ _)
  exact h

/-- Witness for C6: a ledger whose printed taxable base `3.00` equals the
single row amount, so the match marker is set. -/
theorem claim_C6_match_mark_witness :
    (parseLedgerText "0001\n1 2\n3.00\n以余\n3.00\n4-\n5".toList).2.baseCheckMark
      ≠ [] := by
  refine (claim_C6_match_mark _).mpr ⟨⟨300, 2⟩, by decide, ?_⟩
  have hfm : ((parseLedgerText
      "0001\n1 2\n3.00\n以余\n3.00\n4-\n5".toList).1).filterMap
      (fun r => parseNumberSimple r.amount) = [⟨300, 2⟩] := by decide
  rw [amountSumQ, hfm]
  norm_num [DecNum.toQ, pow10]

-- ==================== best-fit search facts ====================

theorem diff_toQ (amt : DecNum) (q p : VTok) :
    (((q.value.mul p.value).sub amt).aval).toQ = pairDiffQ amt (q, p) := by
  rw [DecNum.toQ_aval, DecNum.toQ_sub, DecNum.toQ_mul, pairDiffQ]

theorem ble_false_of_pos (v : DecNum) (h : 0 < DecNum.toQ v) :
    DecNum.ble v DecNum.zero = false :=
  Bool.eq_false_iff.mpr (fun hb => absurd
    (DecNum.toQ_zero ▸ (DecNum.ble_iff _ _).mp hb) (not_le.mpr h))

theorem bestStep_main (amt : DecNum) (st : BestSt) (qp : VTok × VTok)
    (hqpos : 0 < DecNum.toQ qp.1.value)
    (hppos : 0 < DecNum.toQ qp.2.value) :
    ((bestStep amt st qp).bestDiff = st.bestDiff ∧
      (∃ bd, st.bestDiff = some bd ∧
        bd.toQ ≤ (((qp.1.value.mul qp.2.value).sub amt).aval).toQ +
          1 / 1000000) ∧
      (bestStep amt st qp = st ∨
        ((bestStep amt st qp).bestQ = some qp.1 ∧
         (bestStep amt st qp).bestP = some qp.2 ∧
         ∃ bd, st.bestDiff = some bd ∧
           (((qp.1.value.mul qp.2.value).sub amt).aval).toQ ≤
             bd.toQ + 1 / 2))) ∨
    ((bestStep amt st qp).bestDiff =
        some (((qp.1.value.mul qp.2.value).sub amt).aval) ∧
      (bestStep amt st qp).bestQ = some qp.1 ∧
      (bestStep amt st qp).bestP = some qp.2 ∧
      (∀ bd, st.bestDiff = some bd →
        (((qp.1.value.mul qp.2.value).sub amt).aval).toQ ≤ bd.toQ)) := by
  have hg1 := ble_false_of_pos qp.1.value hqpos
  have hg2 := ble_false_of_pos qp.2.value hppos
  obtain ⟨bd0, bq0, bp0⟩ := st
  unfold bestStep
  dsimp only
  rw [hg1, hg2]
  simp only [Bool.or_self, Bool.false_eq_true, if_false]
  cases bd0 with
  | none =>
      exact Or.inr ⟨rfl, rfl, rfl, fun bd hbd => by cases hbd⟩
  | some bdv =>
      dsimp only
      by_cases hi : DecNum.blt (((qp.1.value.mul qp.2.value).sub
          amt).aval.add DecNum.eps6) bdv = true
      · rw [if_pos hi]
        refine Or.inr ⟨rfl, rfl, rfl, fun bd hbd => ?_⟩
        injection hbd with hbd2
        subst hbd2
        have h2 := (DecNum.blt_iff _ _).mp hi
        rw [DecNum.toQ_add, DecNum.toQ_eps6] at h2
        linarith
      · rw [if_neg hi]
        have hnotimp : bdv.toQ ≤
            (((qp.1.value.mul qp.2.value).sub amt).aval).toQ +
              1 / 1000000 := by
          have h2 : ¬ ((((qp.1.value.mul qp.2.value).sub
              amt).aval.add DecNum.eps6).toQ < bdv.toQ) := by
            intro hcon
            exact hi ((DecNum.blt_iff _ _).mpr hcon)
          rw [DecNum.toQ_add, DecNum.toQ_eps6] at h2
          linarith
        by_cases htie : DecNum.ble ((((qp.1.value.mul qp.2.value).sub
            amt).aval.sub bdv).aval) DecNum.half = true
        · rw [if_pos htie]
          have hclose : (((qp.1.value.mul qp.2.value).sub
              amt).aval).toQ ≤ bdv.toQ + 1 / 2 := by
            have h2 := (DecNum.ble_iff _ _).mp htie
            rw [DecNum.toQ_aval, DecNum.toQ_sub, DecNum.toQ_half] at h2
            have := abs_le.mp h2
            linarith [this.2]
          cases bq0 with
          | none =>
              cases bp0 with
              | none =>
                  exact Or.inl ⟨rfl, ⟨bdv, rfl, hnotimp⟩,
                    Or.inr ⟨rfl, rfl, bdv, rfl, hclose⟩⟩
              | some bpv =>
                  exact Or.inl ⟨rfl, ⟨bdv, rfl, hnotimp⟩,
                    Or.inr ⟨rfl, rfl, bdv, rfl, hclose⟩⟩
          | some bqv =>
              cases bp0 with
              | none =>
                  exact Or.inl ⟨rfl, ⟨bdv, rfl, hnotimp⟩,
                    Or.inr ⟨rfl, rfl, bdv, rfl, hclose⟩⟩
              | some bpv =>
                  dsimp only
                  by_cases hord : (qp.1.gIdx < bqv.gIdx ∨
                      (qp.1.gIdx = bqv.gIdx ∧ qp.2.gIdx < bpv.gIdx))
                  · rw [if_pos hord]
                    exact Or.inl ⟨rfl, ⟨bdv, rfl, hnotimp⟩,
                      Or.inr ⟨rfl, rfl, bdv, rfl, hclose⟩⟩
                  · rw [if_neg hord]
                    exact Or.inl ⟨rfl, ⟨bdv, rfl, hnotimp⟩, Or.inl rfl⟩
        · rw [if_neg htie]
          exact Or.inl ⟨rfl, ⟨bdv, rfl, hnotimp⟩, Or.inl rfl⟩

theorem runBest_valid (amt : DecNum) :
    ∀ (prs : List (VTok × VTok)) (st : BestSt),
    (∀ x ∈ prs, 0 < DecNum.toQ x.1.value ∧ 0 < DecNum.toQ x.2.value) →
    (st = ⟨none, none, none⟩ ∨ ∃ d q p, st = ⟨some d, some q, some p⟩ ∧
      pairDiffQ amt (q, p) ≤ d.toQ + 1 / 2) →
    (prs.foldl (bestStep amt) st = ⟨none, none, none⟩ ∨
      ∃ d q p, prs.foldl (bestStep amt) st = ⟨some d, some q, some p⟩ ∧
        pairDiffQ amt (q, p) ≤ d.toQ + 1 / 2) := by
  intro prs
  induction prs with
  | nil => intro st _ h; exact h
  | cons x xs ih =>
      intro st hpos hinv
      have hx := hpos x (List.mem_cons_self x xs)
      have heta : bestStep amt st x =
          ⟨(bestStep amt st x).bestDiff, (bestStep amt st x).bestQ,
            (bestStep amt st x).bestP⟩ := rfl
      simp only [List.foldl_cons]
      refine ih (bestStep amt st x)
        (fun y hy => hpos y (List.mem_cons_of_mem x hy)) ?_
      rcases bestStep_main amt st x hx.1 hx.2 with
        ⟨hd, ⟨bd, hbd, _⟩, hkeep | ⟨hq, hp, bd2, hbd2, hcl⟩⟩ |
        ⟨hd, hq, hp, _⟩
      · rw [hkeep]
        exact hinv
      · right
        refine ⟨bd2, x.1, x.2, ?_, ?_⟩
        · rw [heta, hd, hbd2, hq, hp]
        · rw [← diff_toQ amt x.1 x.2]
          exact hcl
      · right
        refine ⟨((x.1.value.mul x.2.value).sub amt).aval, x.1, x.2, ?_, ?_⟩
        · rw [heta, hd, hq, hp]
        · rw [← diff_toQ amt x.1 x.2]
          linarith

theorem runBest_mono (amt : DecNum) :
    ∀ (prs : List (VTok × VTok)) (st : BestSt) (d0 : DecNum),
    (∀ x ∈ prs, 0 < DecNum.toQ x.1.value ∧ 0 < DecNum.toQ x.2.value) →
    st.bestDiff = some d0 →
    ∃ d, (prs.foldl (bestStep amt) st).bestDiff = some d ∧
      d.toQ ≤ d0.toQ := by
  intro prs
  induction prs with
  | nil => intro st d0 _ h; exact ⟨d0, h, le_refl _⟩
  | cons x xs ih =>
      intro st d0 hpos hd0
      have hx := hpos x (List.mem_cons_self x xs)
      simp only [List.foldl_cons]
      rcases bestStep_main amt st x hx.1 hx.2 with
        ⟨hd, _, _⟩ | ⟨hd, hq, hp, hmin⟩
      · exact ih (bestStep amt st x)  d0
          (fun y hy => hpos y (List.mem_cons_of_mem x hy)) (hd.trans hd0)
      · obtain ⟨d, hfd, hdle⟩ := ih (bestStep amt st x)
          (((x.1.value.mul x.2.value).sub amt).aval)
          (fun y hy => hpos y (List.mem_cons_of_mem x hy)) hd
        exact ⟨d, hfd, hdle.trans (hmin d0 hd0)⟩

theorem runBest_bound (amt : DecNum) :
    ∀ (prs : List (VTok × VTok)) (st : BestSt) (qp : VTok × VTok),
    (∀ x ∈ prs, 0 < DecNum.toQ x.1.value ∧ 0 < DecNum.toQ x.2.value) →
    qp ∈ prs →
    ∃ d, (prs.foldl (bestStep amt) st).bestDiff = some d ∧
      d.toQ ≤ pairDiffQ amt qp + 1 / 1000000 := by
  intro prs
  induction prs with
  | nil => intro st qp _ h; cases h
  | cons x xs ih =>
      intro st qp hpos hmem
      have hx := hpos x (List.mem_cons_self x xs)
      have hpos2 : ∀ y ∈ xs, 0 < DecNum.toQ y.1.value ∧
          0 < DecNum.toQ y.2.value :=
        fun y hy => hpos y (List.mem_cons_of_mem x hy)
      simp only [List.foldl_cons]
      rcases List.mem_cons.mp hmem with h1 | h2
      · subst h1
        rcases bestStep_main amt st qp hx.1 hx.2 with
          ⟨hd, ⟨bd, hbd, hble⟩, _⟩ | ⟨hd, hq, hp, _⟩
        · obtain ⟨d, hfd, hdle⟩ := runBest_mono amt xs (bestStep amt st qp)
            bd hpos2 (hd.trans hbd)
          refine ⟨d, hfd, hdle.trans ?_⟩
          rw [diff_toQ amt qp.1 qp.2] at hble
          exact hble
        · obtain ⟨d, hfd, hdle⟩ := runBest_mono amt xs (bestStep amt st qp)
            (((qp.1.value.mul qp.2.value).sub amt).aval) hpos2 hd
          refine ⟨d, hfd, hdle.trans ?_⟩
          rw [diff_toQ amt qp.1 qp.2]
          linarith
      · exact ih (bestStep amt st x) qp hpos2 h2

theorem runBest_near (amt : DecNum) (prs : List (VTok × VTok))
    (hpos : ∀ x ∈ prs, 0 < DecNum.toQ x.1.value ∧ 0 < DecNum.toQ x.2.value)
    (x0 : VTok × VTok) (hx0 : x0 ∈ prs) :
    ∃ d bq bp, runBest amt prs = ⟨some d, some bq, some bp⟩ ∧
      pairDiffQ amt (bq, bp) ≤ d.toQ + 1 / 2 ∧
      ∀ qp ∈ prs, d.toQ ≤ pairDiffQ amt qp + 1 / 1000000 := by
  have hrb : runBest amt prs = prs.foldl (bestStep amt) ⟨none, none, none⟩ :=
    rfl
  obtain ⟨d, hfd, _⟩ := runBest_bound amt prs ⟨none, none, none⟩ x0 hpos hx0
  rcases runBest_valid amt prs ⟨none, none, none⟩ hpos (Or.inl rfl) with
    hnone | ⟨d2, q2, p2, hst, hcl⟩
  · rw [hnone] at hfd
    cases hfd
  · have hd2 : d2 = d := by
      rw [hst] at hfd
      simpa using hfd
    subst hd2
    refine ⟨d2, q2, p2, hrb.trans hst, hcl, ?_⟩
    intro qp hqp
    obtain ⟨d3, hfd3, hble3⟩ := runBest_bound amt prs ⟨none, none, none⟩
      qp hpos hqp
    have hd3 : d3 = d2 := by
      rw [hst] at hfd3
      simpa using hfd3.symm
    subst hd3
    exact hble3

theorem cand_pos (amtTok : VTok) (toks : List VTok) (t : VTok)
    (h : t ∈ candidatesOf amtTok toks) : 0 < DecNum.toQ t.value := by
  have h1 := List.of_mem_filter h
  simp only [Bool.and_eq_true] at h1
  have h2 := (DecNum.blt_iff _ _).mp h1.2
  rwa [DecNum.toQ_zero] at h2

theorem orderedPairs_head_mem (c0 c1 : VTok) (rest : List VTok) :
    (c0, c1) ∈ orderedPairs (c0 :: c1 :: rest) := by
  simp only [orderedPairs, List.mem_flatten]
  refine ⟨_, List.mem_map.mpr ⟨(0, c0),
    List.mk_mem_enum_iff_getElem?.mpr rfl, rfl⟩, ?_⟩
  rw [List.mem_filterMap]
  exact ⟨(1, c1), List.mk_mem_enum_iff_getElem?.mpr (by simp), by simp⟩

/-- C2 (amended, best-fit fallback): in a block with no two-number line,
at least three pool tokens and at least two positive candidates besides
the maximum, the emitted amount is the verbatim text of the first
maximum-value token, and the emitted quantity and price are the texts of
an ordered candidate pair whose product lies within `0.5 + 1e-6` of the
optimal distance to the amount over all ordered candidate pairs — there
is no 0.5 acceptance tolerance, and the two-smallest computed-amount
branch is not taken. -/
theorem claim_C2_best_fit (code : List Char) (blockLines : List (List Char))
    (amtTok : VTok)
    (hnp : ∀ l ∈ blockLines, (nonCodeToks code l).length < 2)
    (hlen : 3 ≤ ((tokensBlock code blockLines).filter
      (fun t => !t.isCode)).length)
    (hfm : firstMax ((tokensBlock code blockLines).filter
      (fun t => !t.isCode)) = some amtTok)
    (hcl : 2 ≤ (candidatesOf amtTok ((tokensBlock code blockLines).filter
      (fun t => !t.isCode))).length) :
    ∃ bq bp,
      detailFields code blockLines = (bq.text, bp.text, amtTok.text) ∧
      bq ∈ candidatesOf amtTok ((tokensBlock code blockLines).filter
        (fun t => !t.isCode)) ∧
      bp ∈ candidatesOf amtTok ((tokensBlock code blockLines).filter
        (fun t => !t.isCode)) ∧
      ∀ qp ∈ orderedPairs (candidatesOf amtTok
        ((tokensBlock code blockLines).filter (fun t => !t.isCode))),
        pairDiffQ amtTok.value (bq, bp) ≤
          pairDiffQ amtTok.value qp + 1 / 2 + 1 / 1000000 := by
  have hpf : pairFields code blockLines = none := by
    simp [pairFields, findLastPair_none code blockLines hnp]
  set toks := (tokensBlock code blockLines).filter (fun t => !t.isCode)
    with htoks
  set cand := candidatesOf amtTok toks with hcand
  have hpos : ∀ x ∈ orderedPairs cand,
      0 < DecNum.toQ x.1.value ∧ 0 < DecNum.toQ x.2.value := by
    intro x hx
    have hm := orderedPairs_mem cand x hx
    exact ⟨cand_pos amtTok toks x.1 hm.1, cand_pos amtTok toks x.2 hm.2⟩
  obtain ⟨c0, c1, crest, hcshape⟩ :
      ∃ c0 c1 crest, cand = c0 :: c1 :: crest := by
    rcases cand with _ | ⟨c0, _ | ⟨c1, crest⟩⟩
    · simp at hcl
    · simp at hcl
    · exact ⟨c0, c1, crest, rfl⟩
  have hx0 : (c0, c1) ∈ orderedPairs cand := by
    rw [hcshape]
    exact orderedPairs_head_mem c0 c1 crest
  obtain ⟨d, bq, bp, hrb, hclose, hmin⟩ :=
    runBest_near amtTok.value (orderedPairs cand) hpos (c0, c1) hx0
  refine ⟨bq, bp, ?_, ?_, ?_, ?_⟩
  · rw [detailFields, hpf]
    unfold fallbackFields
    dsimp only
    rw [if_pos hlen, hfm]
    dsimp only
    rw [← hcand, if_pos hcl, hrb]
  · have h := runBest_mem amtTok.value cand (orderedPairs cand)
      ⟨none, none, none⟩ (fun x hx => orderedPairs_mem cand x hx)
      (fun q hq => by cases hq) (fun p hp => by cases hp)
    exact h.1 bq (by rw [show (orderedPairs cand).foldl
      (bestStep amtTok.value) ⟨none, none, none⟩ = runBest amtTok.value
      (orderedPairs cand) from rfl, hrb])
  · have h := runBest_mem amtTok.value cand (orderedPairs cand)
      ⟨none, none, none⟩ (fun x hx => orderedPairs_mem cand x hx)
      (fun q hq => by cases hq) (fun p hp => by cases hp)
    exact h.2 bp (by rw [show (orderedPairs cand).foldl
      (bestStep amtTok.value) ⟨none, none, none⟩ = runBest amtTok.value
      (orderedPairs cand) from rfl, hrb])
  · intro qp hqp
    have h1 := hmin qp hqp
    linarith

/-- Witness for C2: the spec's best-fit scenario tokens
`{12.00, 300.00, 3600.00}` — the amount is the maximum `3600.00` and the
code indeed emits the pair `(12.00, 300.00)`. -/
theorem claim_C2_best_fit_witness :
    (parseDetailsFromText "0001\n12.00\n300.00\n3600.00".toList).map
      (fun r => (r.qty, r.price, r.amount)) =
      [("12.00".toList, "300.00".toList, "3600.00".toList)] ∧
    (∃ bq bp,
      detailFields "0001".toList
        (normalizeLines "0001\n12.00\n300.00\n3600.00".toList) =
        (bq.text, bp.text,
          (⟨"3600.00".toList, ⟨360000, 2⟩, false, 3⟩ : VTok).text) ∧
      bq ∈ candidatesOf ⟨"3600.00".toList, ⟨360000, 2⟩, false, 3⟩
        ((tokensBlock "0001".toList
          (normalizeLines "0001\n12.00\n300.00\n3600.00".toList)).filter
            (fun t => !t.isCode)) ∧
      bp ∈ candidatesOf ⟨"3600.00".toList, ⟨360000, 2⟩, false, 3⟩
        ((tokensBlock "0001".toList
          (normalizeLines "0001\n12.00\n300.00\n3600.00".toList)).filter
            (fun t => !t.isCode)) ∧
      ∀ qp ∈ orderedPairs (candidatesOf
        ⟨"3600.00".toList, ⟨360000, 2⟩, false, 3⟩
        ((tokensBlock "0001".toList
          (normalizeLines "0001\n12.00\n300.00\n3600.00".toList)).filter
            (fun t => !t.isCode))),
        pairDiffQ (⟨360000, 2⟩ : DecNum) (bq, bp) ≤
          pairDiffQ (⟨360000, 2⟩ : DecNum) qp + 1 / 2 + 1 / 1000000) :=
  ⟨by decide,
    claim_C2_best_fit "0001".toList
      (normalizeLines "0001\n12.00\n300.00\n3600.00".toList)
      ⟨"3600.00".toList, ⟨360000, 2⟩, false, 3⟩
      (by decide) (by decide) (by decide) (by decide)⟩
